import Mathlib

/-!
# Verification of the minisat-sms CDCL core against its specification

This file gives a shallow embedding in Lean 4 of the parts of
`src/minisat/core/Solver.cc` (and the SMS propagator wrapper) that the
frozen claims are about, and proves or refutes each claim.

Conventions:
* machine `int`s are modelled as `Nat`/`Int` (no overflow is relevant to
  any claim; all the quantities involved are small and non-negative in
  the code paths under scrutiny);
* `double`s that are only ever built from integer literals, `+`, `-`,
  `*`, `/` and compared are modelled as exact fractions (`Frac` below);
* code that lives in headers outside `src/` (`Solver.h`, `SolverTypes.h`,
  `mtl/Vec.h`, `mtl/Heap.h`) is modelled from the specification's data
  model, and each such definition carries a doc comment saying so.
-/

set_option maxRecDepth 100000
set_option maxHeartbeats 2000000

namespace MinisatSMS

/-- Three-valued assignment value, `lbool` of minisat
(`l_True`, `l_False`, `l_Undef`).  Modelled from the spec:
`assignment ∈ {true, false, undef}` (SolverTypes.h is not under src/). -/
inductive LBool
  | t
  | f
  | undef
deriving DecidableEq, Repr

/-- A literal.  Modelled from the spec: "Encoded as `2·var + sign_bit` so
that negation toggles the low bit" (§3; `SolverTypes.h` is not under src/). -/
structure Lit where
  x : Nat
deriving DecidableEq, Repr

/-- `mkLit v s = 2*v + s` (SolverTypes.h, modelled from the spec's encoding). -/
def mkLit (v : Nat) (s : Bool) : Lit :=
  ⟨2 * v + (if s then 1 else 0)⟩

/-- Variable of a literal: `l.x >> 1`. -/
def Lit.var (l : Lit) : Nat := l.x / 2

/-- Sign of a literal: low bit of the encoding. -/
def Lit.sgn (l : Lit) : Bool := l.x % 2 = 1

/-- Negation of a literal: toggle the low bit. -/
def negLit (l : Lit) : Lit := ⟨l.x ^^^ 1⟩

/-- The value-initialized `Lit` (all-zero bits), what `vec<Lit>(m)` fills
new slots with: variable 0 with positive sign.  Modelled from
`mtl/Vec.h` (not under src/): the one-argument `vec` constructor calls
`growTo(size)`, which value-initializes `size` elements, and a
value-initialized `Lit` has `x = 0`. -/
def defaultLit : Lit := ⟨0⟩

/-- `lbool` "xor" with a `bool`, used by `value(Lit)`:
flips `t`/`f` when the sign bit is set, keeps `undef`. -/
def LBool.flip (b : LBool) (s : Bool) : LBool :=
  if s then (match b with | .t => .f | .f => .t | .undef => .undef) else b

/-! ## Exact fractions

The `double`s the claims touch are built from integer literals by
field operations and compared; exact fractions model them faithfully.
The representation is an integer pair whose denominator stays positive
under all the operations used, with no gcd normalization, so that every
operation is a plain structural computation. -/

/-- An exact fraction `num / den` (denominator kept positive by the
operations below). -/
structure Frac where
  num : Int
  den : Int
deriving DecidableEq, Repr

instance (n : Nat) : OfNat Frac n := ⟨⟨(n : Int), 1⟩⟩

instance : NatCast Frac := ⟨fun n => ⟨(n : Int), 1⟩⟩

instance : IntCast Frac := ⟨fun n => ⟨n, 1⟩⟩

/-- Fraction addition (cross-multiplied, unnormalized). -/
def Frac.add (a b : Frac) : Frac := ⟨a.num * b.den + b.num * a.den, a.den * b.den⟩

instance : Add Frac := ⟨Frac.add⟩

/-- Fraction subtraction. -/
def Frac.sub (a b : Frac) : Frac := ⟨a.num * b.den - b.num * a.den, a.den * b.den⟩

instance : Sub Frac := ⟨Frac.sub⟩

/-- Fraction negation. -/
def Frac.neg (a : Frac) : Frac := ⟨-a.num, a.den⟩

instance : Neg Frac := ⟨Frac.neg⟩

/-- Fraction multiplication. -/
def Frac.mul (a b : Frac) : Frac := ⟨a.num * b.num, a.den * b.den⟩

instance : Mul Frac := ⟨Frac.mul⟩

/-- Fraction inverse, keeping the denominator positive; the inverse of
zero is zero (a case no claim exercises — IEEE doubles would give ∞). -/
def Frac.inv (a : Frac) : Frac :=
  if a.num = 0 then ⟨0, 1⟩
  else if a.num < 0 then ⟨-a.den, -a.num⟩
  else ⟨a.den, a.num⟩

instance : Inv Frac := ⟨Frac.inv⟩

/-- Fraction division. -/
def Frac.div (a b : Frac) : Frac := a * b⁻¹

instance : Div Frac := ⟨Frac.div⟩

/-- Strict fraction comparison (valid for positive denominators). -/
def Frac.lt (a b : Frac) : Prop := a.num * b.den < b.num * a.den

instance : LT Frac := ⟨Frac.lt⟩

instance (a b : Frac) : Decidable (a < b) :=
  inferInstanceAs (Decidable (a.num * b.den < b.num * a.den))

/-- Non-strict fraction comparison (valid for positive denominators). -/
def Frac.le (a b : Frac) : Prop := a.num * b.den ≤ b.num * a.den

instance : LE Frac := ⟨Frac.le⟩

instance (a b : Frac) : Decidable (a ≤ b) :=
  inferInstanceAs (Decidable (a.num * b.den ≤ b.num * a.den))

/-- Natural power of a fraction. -/
def Frac.pow (a : Frac) : Nat → Frac
  | 0 => 1
  | n + 1 => Frac.pow a n * a

instance : HPow Frac Nat Frac := ⟨Frac.pow⟩

/-- Integer power of a fraction (`pow(y, seq)` with an `int` exponent). -/
def Frac.zpow (a : Frac) (z : Int) : Frac :=
  if z < 0 then (a.pow z.natAbs)⁻¹ else a.pow z.natAbs

instance : HPow Frac Int Frac := ⟨Frac.zpow⟩

/-- Floor of a fraction to an integer (the C `(int)` cast is applied
only to non-negative values in the embedded code, where truncation and
floor agree). -/
def Frac.floorI (a : Frac) : Int := a.num.fdiv a.den

/-! ## C10: the binary-search membership helper `in` (Solver.cc lines 1186-1200)

`in` is a reserved word in Lean, so the embedding is named `binSearchIn`.
The C function works on a pointer range `[begin, end)` of `int`s; the
embedding works on the corresponding list of `Int`s. -/

/-- Embedding of `in(begin, end, val)` (Solver.cc 1186-1200):
```
if (end - begin < 1) return 0;
if (end - begin == 1) return *begin == val;
int* m = begin + (end - begin) / 2;
if (*m <= val) begin = m; else end = m;
return in(begin, end, val);
```
Returns `1`/`0` like the C `int`.  The recursion is bounded by the
range length (it shrinks strictly each call), expressed with fuel so
that the definition is a structural computation. -/
def binSearchGo : Nat → List Int → Int → Nat
  | 0, _, _ => 0
  | fuel + 1, l, val =>
    if l.length < 1 then 0
    else if l.length = 1 then (if l.getD 0 0 = val then 1 else 0)
    else
      let m := l.length / 2
      if l.getD m 0 ≤ val then binSearchGo fuel (l.drop m) val
      else binSearchGo fuel (l.take m) val

/-- `in(begin, end, val)` on the list of the range's elements. -/
def binSearchIn (l : List Int) (val : Int) : Nat := binSearchGo (l.length + 1) l val

/-! ## C9 (the `luby` part): Solver.cc lines 929-943 -/

/-- The `for (size = 1, seq = 0; size < x+1; seq++, size = 2*size+1);`
loop of `luby`, with fuel (the loop runs at most `x+1` times since
`size` at least doubles each step). -/
def lubyUp : Nat → Nat → Nat → Nat → Nat × Nat
  | 0, size, seq, _ => (size, seq)
  | fuel + 1, size, seq, x =>
      if size < x + 1 then lubyUp fuel (2 * size + 1) (seq + 1) x else (size, seq)

/-- The `while (size-1 != x){ size = (size-1)>>1; seq--; x = x % size; }`
loop of `luby`, with fuel (`size` halves each step). -/
def lubyDown : Nat → Nat → Int → Nat → Int
  | 0, _, seq, _ => seq
  | fuel + 1, size, seq, x =>
      if size - 1 ≠ x then
        lubyDown fuel ((size - 1) / 2) (seq - 1) (x % ((size - 1) / 2))
      else seq

/-- Embedding of `static double luby(double y, int x)` (Solver.cc 929-943).
The result is `pow(y, seq)`, modelled by `zpow` on `Frac` (the final `seq`
is in fact non-negative, but the code holds it in an `int`). -/
def luby (y : Frac) (x : Nat) : Frac :=
  let p := lubyUp (x + 2) 1 0 x
  let seq := lubyDown (p.1 + 2) p.1 (p.2 : Int) x
  y ^ seq

/-! ## C1: the blocking clause built by `run_solver_enumerate`
(Solver.cc lines 1551-1584) -/

/-- The clause handed to `addClause` by `run_solver_enumerate` after a
model is found (Solver.cc 1562-1565):
```
vec<Lit> blocking_clause(m);
for (Var v = 0; v < m; v++)
  blocking_clause.push(mkLit(v, s->modelValue(v) == l_True));
```
with `m = n*(n-1)/2`.  The one-argument `vec` constructor (mtl/Vec.h,
not under src/) value-initializes `m` elements, so the `vec` starts as
`m` copies of the all-zero literal and the `m` pushed literals follow
them.  `mval` is the solver's `model` array. -/
def enumBlockingClause (n : Nat) (mval : List LBool) : List Lit :=
  let m := n * (n - 1) / 2
  List.replicate m defaultLit ++
    (List.range m).map (fun v => mkLit v (mval.getD v LBool.t = LBool.t))

/-- The clause the claim (and the spec) says is built: exactly the
negations of the model's edge-variable literals, one per edge variable. -/
def claimedBlockingClause (n : Nat) (mval : List LBool) : List Lit :=
  let m := n * (n - 1) / 2
  (List.range m).map (fun v => mkLit v (mval.getD v LBool.t = LBool.t))

/-! ## Solver state

The solver's mutable state (`Solver.h` members, as used by `Solver.cc`).
Variable-indexed and literal-indexed `vec`s are lists indexed by the
variable number resp. the literal encoding `Lit.x`; reads out of range
return the corresponding default (`l_Undef`, level `0`, ...), writes out
of range are dropped, matching a `vec` that has been grown by `newVar`
for every live variable. -/

/-- A watch-list entry: clause reference plus blocker literal. -/
structure Watcher where
  cref : Nat
  blocker : Lit
deriving DecidableEq, Repr

/-- An arena clause: literals, learnt flag, activity (learnt clauses),
and the `mark` field (0 = live, 1 = removed). -/
structure Clause where
  lits : List Lit
  learnt : Bool
  act : Frac
  mark : Nat
deriving DecidableEq, Repr

/-- The all-default clause, used as the out-of-range read default. -/
def emptyClause : Clause := ⟨[], false, 0, 0⟩

/-- Per-variable data: reason clause reference and decision level
(`mkVarData`). -/
structure VarData where
  reason : Option Nat
  level : Nat
deriving DecidableEq, Repr

/-- The user-settable option values and construction-time SMS
configuration.  These are set once (option registry defaults /
constructor arguments) and never written during search, so they are
passed as a read-only parameter rather than carried in the state. -/
structure Opts where
  varDecay : Frac := 95 / 100
  clauseDecay : Frac := 999 / 1000
  randomVarFreq : Frac := 0
  lubyRestart : Bool := true
  ccminMode : Nat := 2
  phaseSaving : Nat := 2
  rndPol : Bool := false
  restartFirst : Nat := 100
  restartInc : Frac := 2
  minLearntsLim : Nat := 0
  learntsizeFactor : Frac := 1 / 3
  learntsizeInc : Frac := 11 / 10
  learntsizeAdjustStartConfl : Frac := 100
  learntsizeAdjustInc : Frac := 3 / 2
  removeSatisfiedFlag : Bool := true
  vertices : Nat := 0
  prop010 : Bool := false
  acPrerunTime : Frac := 0
  assignmentCutoff : Nat := 0
deriving DecidableEq, Repr

/-- The solver state (the mutable members of `class Solver`). -/
structure Solver where
  arena : List Clause := []
  clauses : List Nat := []
  learnts : List Nat := []
  watches : List (List Watcher) := []
  dirty : List Bool := []
  assigns : List LBool := []
  vardata : List VarData := []
  activity : List Frac := []
  polarity : List Bool := []
  userPol : List LBool := []
  decisionFlag : List Bool := []
  seen : List Nat := []
  trail : List Lit := []
  trailLim : List Nat := []
  qhead : Nat := 0
  ok : Bool := true
  cflr : Option Nat := none
  conflictSet : List Lit := []
  model : List LBool := []
  assumptions : List Lit := []
  heap : List Nat := []
  claInc : Frac := 1
  varInc : Frac := 1
  maxLearnts : Frac := 0
  learntsizeAdjustConfl : Frac := 0
  learntsizeAdjustCnt : Int := 0
  solves : Nat := 0
  starts : Nat := 0
  decisions : Nat := 0
  rndDecisions : Nat := 0
  conflicts : Nat := 0
  propagationsStat : Nat := 0
  numClausesStat : Nat := 0
  numLearntsStat : Nat := 0
  clausesLiterals : Nat := 0
  learntsLiterals : Nat := 0
  maxLiterals : Nat := 0
  totLiterals : Nat := 0
  decVars : Nat := 0
  nextVar : Nat := 0
  freeVars : List Nat := []
  releasedVars : List Nat := []
  simpDBAssigns : Int := -1
  simpDBProps : Int := 0
  progressEst : Frac := 0
  conflictBudget : Int := -1
  propagationBudget : Int := -1
  timeBudget : Frac := -1
  asynchInterrupt : Bool := false
  solveTime : Frac := 0
  ticks : Nat := 0
  randTick : Nat := 0
  numSol : Nat := 0
deriving DecidableEq, Repr

/-- `value(Var x)`: current assignment of a variable. -/
def Solver.valueVar (s : Solver) (v : Nat) : LBool := (s.assigns.getD v .undef)

/-- `value(Lit p) = assigns[var(p)] ^ sign(p)`. -/
def Solver.valueL (s : Solver) (l : Lit) : LBool := (s.valueVar l.var).flip l.sgn

/-- `level(Var x)`: decision level of a variable's assignment. -/
def Solver.levelOf (s : Solver) (v : Nat) : Nat := (s.vardata.getD v ⟨none, 0⟩).level

/-- `reason(Var x)`: reason clause reference of a variable. -/
def Solver.reasonOf (s : Solver) (v : Nat) : Option Nat := (s.vardata.getD v ⟨none, 0⟩).reason

/-- `decisionLevel() = trail_lim.size()`. -/
def Solver.decisionLevel (s : Solver) : Nat := s.trailLim.length

/-- `nVars()`. -/
def Solver.nVars (s : Solver) : Nat := s.nextVar

/-- `nAssigns() = trail.size()`. -/
def Solver.nAssigns (s : Solver) : Nat := s.trail.length

/-- Clause lookup in the arena. -/
def Solver.clauseAt (s : Solver) (cr : Nat) : Clause := s.arena.getD cr emptyClause

/-- The watch list of a literal. -/
def Solver.watchList (s : Solver) (p : Lit) : List Watcher := s.watches.getD p.x []

/-- Overwrite the watch list of a literal. -/
def Solver.setWatchList (s : Solver) (p : Lit) (ws : List Watcher) : Solver :=
  { s with watches := s.watches.set p.x ws }

/-- Push a watcher onto the watch list of a literal. -/
def Solver.pushWatch (s : Solver) (p : Lit) (w : Watcher) : Solver :=
  s.setWatchList p (s.watchList p ++ [w])

/-- `OccLists::smudge`: mark a literal's watch list as needing cleaning.
Modelled from the spec: "supports smudge-then-clean" (§3; `SolverTypes.h`
is not under src/). -/
def Solver.smudgeWatch (s : Solver) (p : Lit) : Solver :=
  { s with dirty := s.dirty.set p.x true }

/-- `OccLists::clean`: drop watchers whose clause has been removed
(`mark() == 1`, the `WatcherDeleted` predicate).  Modelled from the spec
(§9, lazy detach; `SolverTypes.h` is not under src/). -/
def Solver.cleanWatch (s : Solver) (p : Lit) : Solver :=
  let ws := (s.watchList p).filter (fun w => (s.clauseAt w.cref).mark ≠ 1)
  { (s.setWatchList p ws) with dirty := s.dirty.set p.x false }

/-- `OccLists::lookup`: clean the list first if it is dirty, then read it. -/
def Solver.lookupWatch (s : Solver) (p : Lit) : List Watcher × Solver :=
  let s := if s.dirty.getD p.x false then s.cleanWatch p else s
  (s.watchList p, s)

/-- `satisfied(c)`: some literal of the clause is true (Solver.cc 226-230). -/
def Solver.satisfiedC (s : Solver) (c : Clause) : Bool :=
  c.lits.any (fun l => s.valueL l = .t)

/-- `locked(c)`: the clause is the reason of its first literal's variable
and that literal is true.  Modelled from the spec: "a clause is *locked*
iff it equals the reason of the first literal's variable *and* that
literal is currently assigned true" (§9; `Solver.h` is not under src/). -/
def Solver.lockedAt (s : Solver) (cr : Nat) : Bool :=
  let c0 := (s.clauseAt cr).lits.getD 0 defaultLit
  s.valueL c0 = .t ∧ s.reasonOf c0.var = some cr

/-- `insertVarOrder(x)`: put the variable (back) into the order heap if
eligible.  The heap (`mtl/Heap.h`, not under src/) is modelled from the
spec as a "max-activity priority queue": a list of member variables;
`removeMin` scans for the first maximal-activity entry. -/
def Solver.insertVarOrder (s : Solver) (v : Nat) : Solver :=
  if v ∉ s.heap ∧ s.decisionFlag.getD v false then { s with heap := s.heap ++ [v] }
  else s

/-- `order_heap.removeMin()` under `VarOrderLt` (activity comparison,
larger activity first).  Modelled from the spec (§3 order heap). -/
def Solver.heapRemoveMin (s : Solver) : Option Nat × Solver :=
  match s.heap with
  | [] => (none, s)
  | h :: _ =>
      let best := s.heap.foldl
        (fun b v => if s.activity.getD b 0 < s.activity.getD v 0 then v else b) h
      (some best, { s with heap := s.heap.erase best })

/-- Grow a list to a given length with a pad value (`vec::growTo`). -/
def listGrowTo (l : List α) (n : Nat) (pad : α) : List α :=
  l ++ List.replicate (n - l.length) pad

/-- `setDecisionVar(v, b)` (Solver.h, modelled from the spec's
variable-state data model). -/
def Solver.setDecisionVar (s : Solver) (v : Nat) (b : Bool) : Solver :=
  let s :=
    if b ∧ ¬(s.decisionFlag.getD v false) then { s with decVars := s.decVars + 1 }
    else if ¬b ∧ s.decisionFlag.getD v false then { s with decVars := s.decVars - 1 }
    else s
  let s := { s with decisionFlag := s.decisionFlag.set v b }
  s.insertVarOrder v

/-- `newVar(upol, dvar)` (Solver.cc 123-144).  `rnd_init_act` is left at
its default `false`, so the initial activity is 0. -/
def Solver.newVar (s : Solver) (upol : LBool) (dvar : Bool) : Nat × Solver :=
  let (v, s) :=
    match s.freeVars.getLast? with
    | some v => (v, { s with freeVars := s.freeVars.dropLast })
    | none => (s.nextVar, { s with nextVar := s.nextVar + 1 })
  let s := { s with
    watches := listGrowTo s.watches (2 * v + 2) [],
    dirty := listGrowTo s.dirty (2 * v + 2) false,
    assigns := (listGrowTo s.assigns (v + 1) .undef).set v .undef,
    vardata := (listGrowTo s.vardata (v + 1) ⟨none, 0⟩).set v ⟨none, 0⟩,
    activity := (listGrowTo s.activity (v + 1) 0).set v 0,
    seen := (listGrowTo s.seen (v + 1) 0).set v 0,
    polarity := (listGrowTo s.polarity (v + 1) true).set v true,
    userPol := (listGrowTo s.userPol (v + 1) .undef).set v upol,
    decisionFlag := listGrowTo s.decisionFlag (v + 1) false }
  (v, s.setDecisionVar v dvar)

/-- `uncheckedEnqueue(p, from)` (Solver.cc 491-497). -/
def Solver.uncheckedEnqueue (s : Solver) (p : Lit) (r : Option Nat) : Solver :=
  { s with
    assigns := s.assigns.set p.var (if p.sgn then .f else .t),
    vardata := s.vardata.set p.var ⟨r, s.decisionLevel⟩,
    trail := s.trail ++ [p] }

/-- `newDecisionLevel()`: push the current trail size. -/
def Solver.newDecisionLevel (s : Solver) : Solver :=
  { s with trailLim := s.trailLim ++ [s.trail.length] }

/-- One undo step of `cancelUntil`: unassign, save phase, re-insert into
the order heap.  `pos` is the trail index `c` of the entry, `lastLim` the
value of `trail_lim.last()`. -/
def Solver.cancelOne (opts : Opts) (lastLim : Nat) (s : Solver) (pl : Nat × Lit) : Solver :=
  let x := pl.2.var
  let s := { s with assigns := s.assigns.set x .undef }
  let s :=
    if 1 < opts.phaseSaving ∨ (opts.phaseSaving = 1 ∧ lastLim < pl.1) then
      { s with polarity := s.polarity.set x pl.2.sgn }
    else s
  s.insertVarOrder x

/-- `cancelUntil(level)` (Solver.cc 235-247): revert to the state at the
given decision level, clearing the cached conflict reference. -/
def Solver.cancelUntil (opts : Opts) (s : Solver) (lvl : Nat) : Solver :=
  if lvl < s.decisionLevel then
    let keep := s.trailLim.getD lvl 0
    let lastLim := s.trailLim.getD (s.trailLim.length - 1) 0
    let idxLits := ((List.range s.trail.length).zip s.trail).drop keep
    let s1 := idxLits.reverse.foldl (Solver.cancelOne opts lastLim) { s with cflr := none }
    { s1 with
      qhead := keep,
      trail := s.trail.take keep,
      trailLim := s.trailLim.take lvl }
  else s

/-- `ca.alloc(ps, learnt)`: append a fresh clause to the arena and
return its reference. -/
def Solver.allocClause (s : Solver) (ls : List Lit) (lrnt : Bool) : Nat × Solver :=
  (s.arena.length, { s with arena := s.arena ++ [⟨ls, lrnt, 0, 0⟩] })

/-- Overwrite the literal list of an arena clause (in-place clause
mutation, e.g. the watched-literal swaps in `propagate`). -/
def Solver.setClauseLits (s : Solver) (cr : Nat) (ls : List Lit) : Solver :=
  { s with arena := s.arena.set cr { s.clauseAt cr with lits := ls } }

/-- `attachClause(cr)` (Solver.cc 188-195). -/
def Solver.attachClause (s : Solver) (cr : Nat) : Solver :=
  let c := s.clauseAt cr
  let c0 := c.lits.getD 0 defaultLit
  let c1 := c.lits.getD 1 defaultLit
  let s := s.pushWatch (negLit c0) ⟨cr, c1⟩
  let s := s.pushWatch (negLit c1) ⟨cr, c0⟩
  if c.learnt then
    { s with numLearntsStat := s.numLearntsStat + 1,
             learntsLiterals := s.learntsLiterals + c.lits.length }
  else
    { s with numClausesStat := s.numClausesStat + 1,
             clausesLiterals := s.clausesLiterals + c.lits.length }

/-- `detachClause(cr, strict=false)` (Solver.cc 198-213): lazy detach via
smudging both watch lists. -/
def Solver.detachClauseLazy (s : Solver) (cr : Nat) : Solver :=
  let c := s.clauseAt cr
  let c0 := c.lits.getD 0 defaultLit
  let c1 := c.lits.getD 1 defaultLit
  let s := s.smudgeWatch (negLit c0)
  let s := s.smudgeWatch (negLit c1)
  if c.learnt then
    { s with numLearntsStat := s.numLearntsStat - 1,
             learntsLiterals := s.learntsLiterals - c.lits.length }
  else
    { s with numClausesStat := s.numClausesStat - 1,
             clausesLiterals := s.clausesLiterals - c.lits.length }

/-- `removeClause(cr)` (Solver.cc 216-223): detach, clear a dangling
reason, and mark the clause as removed (the allocator's `free` only
accounts wasted space, which the list arena does not need to track). -/
def Solver.removeClause (s : Solver) (cr : Nat) : Solver :=
  let s := s.detachClauseLazy cr
  let c0 := (s.clauseAt cr).lits.getD 0 defaultLit
  let s :=
    if s.lockedAt cr then
      { s with vardata := s.vardata.set c0.var ⟨none, s.levelOf c0.var⟩ }
    else s
  { s with arena := s.arena.set cr { s.clauseAt cr with mark := 1 } }

/-! ## Unit propagation (Solver.cc 511-569) -/

/-- The `for (int k = 2; k < c.size(); k++)` scan for a non-false
replacement watch literal; returns the first such index `k ≥ 2`. -/
def Solver.findNewWatch (s : Solver) (lits : List Lit) (k : Nat) : Option Nat :=
  ((List.range lits.length).drop k).find? (fun i => s.valueL (lits.getD i defaultLit) ≠ .f)

/-- Process the watcher list of the newly dequeued literal `p`
(the inner `for (i = j = ...; i != end;)` loop of `propagate`).
Returns the updated solver, the compacted watcher list for `p`
(the effect of `ws.shrink(i - j)`), and the conflict reference, if any. -/
def Solver.processWatchers (s : Solver) (p : Lit) :
    List Watcher → List Watcher → Solver × List Watcher × Option Nat
  | [], kept => (s, kept.reverse, none)
  | w :: rest, kept =>
    if s.valueL w.blocker = .t then
      -- blocker true: keep the watch untouched
      s.processWatchers p rest (w :: kept)
    else
      let cr := w.cref
      let c := s.clauseAt cr
      let falseLit := negLit p
      -- make sure the false literal is at index 1
      let lits :=
        if c.lits.getD 0 defaultLit = falseLit then
          (c.lits.set 0 (c.lits.getD 1 defaultLit)).set 1 falseLit
        else c.lits
      let s := s.setClauseLits cr lits
      let first := lits.getD 0 defaultLit
      let wNew : Watcher := ⟨cr, first⟩
      if first ≠ w.blocker ∧ s.valueL first = .t then
        -- clause already satisfied: keep, with blocker updated to c[0]
        s.processWatchers p rest (wNew :: kept)
      else
        match s.findNewWatch lits 2 with
        | some k =>
            -- move the watch to the new non-false literal
            let lits' := (lits.set 1 (lits.getD k defaultLit)).set k falseLit
            let s := s.setClauseLits cr lits'
            let s := s.pushWatch (negLit (lits'.getD 1 defaultLit)) wNew
            s.processWatchers p rest kept
        | none =>
            if s.valueL first = .f then
              -- conflict: keep this watch and copy the remaining ones
              (s, kept.reverse ++ wNew :: rest, some cr)
            else
              -- unit: enqueue c[0] with this clause as reason
              (s.uncheckedEnqueue first (some cr)).processWatchers p rest (wNew :: kept)

/-- The outer `while (qhead < trail.size())` loop of `propagate`.
`fuel` bounds the number of dequeues; `numProps` accumulates
`num_props`.  A fuel of `nVars + 1` is always sufficient on well-formed
states (the trail never exceeds `nVars` entries). -/
def Solver.propagateGo (s : Solver) (fuel : Nat) (numProps : Nat) : Option Nat × Solver × Nat :=
  match fuel with
  | 0 => (none, s, numProps)
  | fuel + 1 =>
    if h : s.qhead < s.trail.length then
      let p := s.trail.get ⟨s.qhead, h⟩
      let s := { s with qhead := s.qhead + 1 }
      let (ws, s) := s.lookupWatch p
      let (s, kept, confl) := s.processWatchers p ws []
      let s := s.setWatchList p kept
      match confl with
      | some cr =>
          -- `qhead = trail.size()` drains the queue and ends the loop
          (some cr, { s with qhead := s.trail.length }, numProps + 1)
      | none => s.propagateGo fuel (numProps + 1)
    else (none, s, numProps)

/-- `propagate()` (Solver.cc 511-569): run the two-watched-literal loop
and account the propagation statistics. -/
def Solver.propagate (s : Solver) (fuel : Nat) : Option Nat × Solver :=
  let (confl, s, numProps) := s.propagateGo fuel 0
  (confl,
   { s with propagationsStat := s.propagationsStat + numProps,
            simpDBProps := s.simpDBProps - numProps })

/-! ## Activities (Solver.h helpers, modelled from the spec §4.2:
bump by the increment, rescale everything on overflow, decay by growing
the increment) -/

/-- `varBumpActivity(v)`: add `var_inc`; on exceeding `1e100` rescale all
variable activities and `var_inc` by `1e-100`.  (The heap position
update is a no-op in the list model of the heap.) -/
def Solver.varBumpActivity (s : Solver) (v : Nat) : Solver :=
  let a := s.activity.getD v 0 + s.varInc
  let s := { s with activity := s.activity.set v a }
  if (10 : Frac) ^ (100 : ℕ) < a then
    { s with activity := s.activity.map (fun x => x * ((10 : Frac) ^ (100 : ℕ))⁻¹),
             varInc := s.varInc * ((10 : Frac) ^ (100 : ℕ))⁻¹ }
  else s

/-- `claBumpActivity(c)`: add `cla_inc` to the clause activity; on
exceeding `1e20` rescale all learnt-clause activities and `cla_inc`. -/
def Solver.claBumpActivity (s : Solver) (cr : Nat) : Solver :=
  let c := s.clauseAt cr
  let a := c.act + s.claInc
  let s := { s with arena := s.arena.set cr { c with act := a } }
  if (10 : Frac) ^ (20 : ℕ) < a then
    { s with
      arena :=
        s.arena.map
          (fun c => if c.learnt then { c with act := c.act * ((10 : Frac) ^ (20 : ℕ))⁻¹ } else c),
      claInc := s.claInc * ((10 : Frac) ^ (20 : ℕ))⁻¹ }
  else s

/-- `varDecayActivity()`: grow `var_inc` by `1 / var_decay`. -/
def Solver.varDecayActivity (opts : Opts) (s : Solver) : Solver :=
  { s with varInc := s.varInc * opts.varDecay⁻¹ }

/-- `claDecayActivity()`: grow `cla_inc` by `1 / clause_decay`. -/
def Solver.claDecayActivity (opts : Opts) (s : Solver) : Solver :=
  { s with claInc := s.claInc * opts.clauseDecay⁻¹ }

/-! ## addClause_ (Solver.cc 158-185) -/

/-- The ordering `sort(ps)` uses in `addClause_`: `Lit::operator<`,
comparison of the encodings. -/
def litLe (a b : Lit) : Prop := a.x ≤ b.x

instance : DecidableRel litLe := fun a b => inferInstanceAs (Decidable (a.x ≤ b.x))

/-- The satisfied/duplicate/false-literal compaction loop of
`addClause_`: returns `none` when the clause is found satisfied or
tautological (the `return true` in the loop), otherwise the compacted
literal list. -/
def Solver.addClauseSimp (s : Solver) : List Lit → Option Lit → List Lit → Option (List Lit)
  | [], _, acc => some acc.reverse
  | l :: rest, p, acc =>
    if s.valueL l = .t ∨ some l = p.map negLit then none
    else if s.valueL l ≠ .f ∧ some l ≠ p then s.addClauseSimp rest (some l) (l :: acc)
    else s.addClauseSimp rest p acc

/-- `addClause_(ps)` (Solver.cc 158-185).  Returns the `bool` result and
the new state.  `fuel` is handed to `propagate`. -/
def Solver.addClauseInner (s : Solver) (ps : List Lit) (fuel : Nat) : Bool × Solver :=
  if ¬s.ok then (false, s)
  else
    let sorted := List.insertionSort litLe ps
    match s.addClauseSimp sorted none [] with
    | none => (true, s)
    | some [] => (false, { s with ok := false })
    | some [l] =>
        let s := s.uncheckedEnqueue l none
        let (confl, s) := s.propagate fuel
        let okb := confl = none
        (okb, { s with ok := okb })
    | some ls =>
        let (cr, s) := s.allocClause ls false
        let s := { s with clauses := s.clauses ++ [cr] }
        (true, s.attachClause cr)

/-! ## Conflict analysis (Solver.cc 301-449) -/

/-- The `while (!seen[var(trail[index--])]);` walk: greatest trail
position `i ≤ index` whose variable is marked seen (position 0 if none;
in real executions one always exists while `pathC > 0`). -/
def Solver.lastSeenPos (s : Solver) : Nat → Nat
  | 0 => 0
  | i + 1 =>
      if s.seen.getD ((s.trail.getD (i + 1) defaultLit).var) 0 = 1 then i + 1
      else s.lastSeenPos i

/-- One literal `q` of the clause currently being resolved
(the inner `for` loop body of the first phase of `analyze`). -/
def Solver.analyzeSeenStep (s : Solver × Nat × List Lit) (q : Lit) : Solver × Nat × List Lit :=
  let (sv, pathC, outl) := s
  if sv.seen.getD q.var 0 = 0 ∧ 0 < sv.levelOf q.var then
    let sv := sv.varBumpActivity q.var
    let sv := { sv with seen := sv.seen.set q.var 1 }
    if sv.decisionLevel ≤ sv.levelOf q.var then (sv, pathC + 1, outl)
    else (sv, pathC, outl ++ [q])
  else (sv, pathC, outl)

/-- The `do { ... } while (pathC > 0)` loop of `analyze` (first phase).
Returns the state, the final pivot `p` and the collected tail of the
learnt clause.  On fuel exhaustion (which cannot happen in a real
execution: each round strictly lowers the trail position searched) the
current pivot is returned. -/
def Solver.analyzeGo :
    Nat → Solver → Option Nat → Option Lit → Nat → Nat → List Lit → Solver × Lit × List Lit
  | 0, s, _, p, _, _, outl => (s, p.getD defaultLit, outl)
  | fuel + 1, s, confl, p, index, pathC, outl =>
    let c := s.clauseAt (confl.getD 0)
    let s := if c.learnt then s.claBumpActivity (confl.getD 0) else s
    let start := if p = none then 0 else 1
    let (s, pathC, outl) := (c.lits.drop start).foldl Solver.analyzeSeenStep (s, pathC, outl)
    let pos := s.lastSeenPos index
    let p' := s.trail.getD pos defaultLit
    let confl' := s.reasonOf p'.var
    let s := { s with seen := s.seen.set p'.var 0 }
    let pathC := pathC - 1
    if 0 < pathC then Solver.analyzeGo fuel s confl' (some p') (pos - 1) pathC outl
    else (s, p', outl)

/-- One iteration of the explicit-stack loop of `litRedundant`
(Solver.cc 393-449); `seen` values: 0 undef, 1 source, 2 removable,
3 failed.  State: `(toclear, p, i, stack)`.  On fuel exhaustion the
literal counts as not redundant (cannot happen in real executions). -/
def Solver.litRedGo :
    Nat → Solver → List Lit → Lit → Nat → List (Nat × Lit) → Solver × List Lit × Bool
  | 0, s, tc, _, _, _ => (s, tc, false)
  | fuel + 1, s, tc, p, i, stack =>
    let c := s.clauseAt ((s.reasonOf p.var).getD 0)
    if h : i < c.lits.length then
      let l := c.lits.get ⟨i, h⟩
      if s.levelOf l.var = 0 ∨ s.seen.getD l.var 0 = 1 ∨ s.seen.getD l.var 0 = 2 then
        Solver.litRedGo fuel s tc p (i + 1) stack
      else if s.reasonOf l.var = none ∨ s.seen.getD l.var 0 = 3 then
        let stack := stack ++ [(0, p)]
        let (s, tc) := stack.foldl
          (fun (acc : Solver × List Lit) e =>
            if acc.1.seen.getD e.2.var 0 = 0 then
              ({ acc.1 with seen := acc.1.seen.set e.2.var 3 }, acc.2 ++ [e.2])
            else acc)
          (s, tc)
        (s, tc, false)
      else
        Solver.litRedGo fuel s tc l 1 (stack ++ [(i, p)])
    else
      let (s, tc) :=
        if s.seen.getD p.var 0 = 0 then
          ({ s with seen := s.seen.set p.var 2 }, tc ++ [p])
        else (s, tc)
      match stack.getLast? with
      | none => (s, tc, true)
      | some e => Solver.litRedGo fuel s tc e.2 (e.1 + 1) stack.dropLast

/-- `litRedundant(p)` (Solver.cc 393-449): can `p` be removed from the
learnt clause?  Threads `analyze_toclear` through. -/
def Solver.litRedundant (s : Solver) (tc : List Lit) (p : Lit) (fuel : Nat) :
    Solver × List Lit × Bool :=
  Solver.litRedGo fuel s tc p 1 []

/-- The `ccmin_mode == 2` minimization pass over `out_learnt[1..]`:
keep a literal if it has no reason or is not redundant. -/
def Solver.minimizeDeep (s : Solver) (tc : List Lit) (fuel : Nat) :
    List Lit → List Lit → Solver × List Lit × List Lit
  | [], acc => (s, tc, acc.reverse)
  | l :: rest, acc =>
    if s.reasonOf l.var = none then s.minimizeDeep tc fuel rest (l :: acc)
    else
      let (s, tc, red) := s.litRedundant tc l fuel
      if red then s.minimizeDeep tc fuel rest acc
      else s.minimizeDeep tc fuel rest (l :: acc)

/-- The `ccmin_mode == 1` (basic) minimization pass. -/
def Solver.minimizeBasic (s : Solver) : List Lit → List Lit → List Lit
  | [], acc => acc.reverse
  | l :: acc0, acc =>
    match s.reasonOf l.var with
    | none => s.minimizeBasic acc0 (l :: acc)
    | some cr =>
        let c := s.clauseAt cr
        if (c.lits.drop 1).any (fun k => s.seen.getD k.var 0 = 0 ∧ 0 < s.levelOf k.var) then
          s.minimizeBasic acc0 (l :: acc)
        else s.minimizeBasic acc0 acc

/-- The `for (int i = 2; ...)` argmax scan of the backtrack-level block:
index of the first literal with the greatest decision level, scanning
indices from `i` with current best `best`. -/
def Solver.argmaxLevel (s : Solver) (outl : List Lit) (i best : Nat) : Nat :=
  ((List.range outl.length).drop i).foldl
    (fun best i =>
      if s.levelOf (outl.getD best defaultLit).var < s.levelOf (outl.getD i defaultLit).var
      then i else best)
    best

/-- The "Find correct backtrack level" block of `analyze`
(Solver.cc 371-386): on a unit learnt clause the level is 0; otherwise
the literal with the greatest level among `out_learnt[1..]` is swapped
to index 1 and its level returned. -/
def Solver.findBtLevel (s : Solver) (outl : List Lit) : List Lit × Nat :=
  if outl.length = 1 then (outl, 0)
  else
    let maxI := s.argmaxLevel outl 2 1
    let l1 := outl.getD 1 defaultLit
    let lm := outl.getD maxI defaultLit
    ((outl.set maxI l1).set 1 lm, s.levelOf lm.var)

/-- `analyze(confl, out_learnt, out_btlevel)` (Solver.cc 301-389),
returning `(state, out_learnt, out_btlevel)`.  `opts.ccminMode`
selects the minimization pass (default 2). -/
def Solver.analyze (opts : Opts) (s : Solver) (confl : Nat) (fuel : Nat) :
    Solver × List Lit × Nat :=
  let (s, p, rest) := Solver.analyzeGo fuel s (some confl) none (s.trail.length - 1) 0 []
  let outl0 := negLit p :: rest
  let tc := outl0
  let (s, tc, outl) :=
    if opts.ccminMode = 2 then
      let (s, tc, kept) := s.minimizeDeep tc fuel rest []
      (s, tc, negLit p :: kept)
    else if opts.ccminMode = 1 then (s, tc, negLit p :: s.minimizeBasic rest [])
    else (s, tc, outl0)
  let s := { s with maxLiterals := s.maxLiterals + outl0.length,
                    totLiterals := s.totLiterals + outl.length }
  let (outl, btlevel) := s.findBtLevel outl
  let s := tc.foldl (fun s l => { s with seen := s.seen.set l.var 0 }) s
  (s, outl, btlevel)

/-- `analyzeFinal(p, out_conflict)` (Solver.cc 461-488): express the
final conflict in terms of the assumptions.  The `LSet` insert is
modelled as append-if-absent. -/
def Solver.analyzeFinal (s : Solver) (p : Lit) : Solver :=
  let s := { s with conflictSet := [p] }
  if s.decisionLevel = 0 then s
  else
    let s := { s with seen := s.seen.set p.var 1 }
    let lo := s.trailLim.getD 0 0
    let idxs := (List.range s.trail.length).drop lo
    let s := idxs.reverse.foldl
      (fun (s : Solver) i =>
        let x := (s.trail.getD i defaultLit).var
        if s.seen.getD x 0 ≠ 0 then
          let s :=
            match s.reasonOf x with
            | none =>
                let nl := negLit (s.trail.getD i defaultLit)
                if nl ∈ s.conflictSet then s else { s with conflictSet := s.conflictSet ++ [nl] }
            | some cr =>
                (((s.clauseAt cr).lits.drop 1).foldl
                  (fun (s : Solver) (q : Lit) =>
                    if 0 < s.levelOf q.var then { s with seen := s.seen.set q.var 1 } else s) s)
          { s with seen := s.seen.set x 0 }
        else s)
      s
    { s with seen := s.seen.set p.var 0 }

/-! ## Dynamic clause ingestion: `addClauseDuringSearch` (Solver.cc 1204-1343) -/

/-- The ordering of the `std::sort` comparator in `addClauseDuringSearch`:
unassigned literals first, then assigned literals by descending decision
level.  (The C++ comparator is the corresponding strict test; the order
within a group of equal keys is unspecified there and fixed here by the
stable insertion sort.) -/
def ingestLe (s : Solver) (la lb : Lit) : Prop :=
  s.valueL la = .undef ∨ (s.valueL lb ≠ .undef ∧ s.levelOf lb.var ≤ s.levelOf la.var)

instance (s : Solver) : DecidableRel (ingestLe s) := fun _ _ => by
  unfold ingestLe
  infer_instance

/-- `addClauseDuringSearch(clause)` (Solver.cc 1204-1343): ingest a
clause at an arbitrary decision level.  Returns `false` exactly when the
clause is found violated at decision level 0.  `fuel` is handed to
`analyze` in the conflicting case. -/
def Solver.addClauseDuringSearch (opts : Opts) (s : Solver) (cls : List Lit) (fuel : Nat) :
    Bool × Solver :=
  if cls.length = 0 then (false, s)
  else
    let clause := List.insertionSort (ingestLe s) cls
    let numUnassigned := (clause.takeWhile (fun l => s.valueL l = .undef)).length
    if numUnassigned = clause.length then
      let s := s.cancelUntil opts 0
      (true, s.uncheckedEnqueue (clause.getD 0 defaultLit) none)
    else
      let highestDl := s.levelOf (clause.getD numUnassigned defaultLit).var
      if highestDl = 0 ∧ numUnassigned = 0 then (false, s)
      else
        let numHighest :=
          1 + ((clause.drop (numUnassigned + 1)).takeWhile
                 (fun l => s.levelOf l.var = highestDl)).length
        if numUnassigned = 1 then
          let s := s.cancelUntil opts highestDl
          let (cr, s) := s.allocClause clause false
          let s := clause.foldl (fun s l => s.varBumpActivity l.var) s
          let s := { s with clauses := s.clauses ++ [cr] }
          let s := s.attachClause cr
          (true, s.uncheckedEnqueue (clause.getD 0 defaultLit) (some cr))
        else
          -- num_unassigned == 0 from here on (asserted in the code)
          if 1 < numHighest then
            -- conflicting at highestDl: attach and run conflict analysis
            let s := s.cancelUntil opts highestDl
            let (cr, s) := s.allocClause clause false
            let s := { s with clauses := s.clauses ++ [cr] }
            let s := s.attachClause cr
            let (s, learnt, btlevel) := s.analyze opts cr fuel
            let s := s.cancelUntil opts btlevel
            match learnt with
            | [l] => (true, s.uncheckedEnqueue l none)
            | _ =>
                let (cr2, s) := s.allocClause learnt true
                let s := { s with learnts := s.learnts ++ [cr2] }
                let s := s.attachClause cr2
                let s := s.claBumpActivity cr2
                (true, s.uncheckedEnqueue (learnt.getD 0 defaultLit) (some cr2))
          else
            -- already asserting after a backtrack
            if 1 < clause.length then
              let secondHighest := s.levelOf ((clause.getD 1 defaultLit).var)
              let s := s.cancelUntil opts secondHighest
              let (cr, s) := s.allocClause clause false
              let s := clause.foldl (fun s l => s.varBumpActivity l.var) s
              let s := { s with clauses := s.clauses ++ [cr] }
              let s := s.attachClause cr
              (true, s.uncheckedEnqueue (clause.getD 0 defaultLit) (some cr))
            else
              let s := s.cancelUntil opts 0
              (true, s.uncheckedEnqueue (clause.getD 0 defaultLit) none)

/-! ## reduceDB (Solver.cc 580-603) -/

/-- The strict comparison `reduceDB_lt`:
`size(x) > 2 ∧ (size(y) == 2 ∨ activity(x) < activity(y))`. -/
def reduceDBlt (s : Solver) (x y : Nat) : Prop :=
  2 < (s.clauseAt x).lits.length ∧
    ((s.clauseAt y).lits.length = 2 ∨ (s.clauseAt x).act < (s.clauseAt y).act)

instance (s : Solver) : DecidableRel (reduceDBlt s) := fun _ _ => by
  unfold reduceDBlt
  infer_instance

/-- The non-strict relation used to sort: `¬ reduceDB_lt y x`
(a list sorted by it satisfies the postcondition of `mtl` `sort`:
no later element is strictly below an earlier one). -/
def reduceDBle (s : Solver) (x y : Nat) : Prop := ¬ reduceDBlt s y x

instance (s : Solver) : DecidableRel (reduceDBle s) := fun _ _ => by
  unfold reduceDBle
  infer_instance

/-- `sort(learnts, reduceDB_lt(ca))`: the learnt list sorted by the
comparator. -/
def Solver.sortedLearnts (s : Solver) : List Nat :=
  List.insertionSort (reduceDBle s) s.learnts

/-- The deletion filter of `reduceDB`, run over the sorted list with its
indices (`extraLim` and `n` are fixed before the loop, as in the code). -/
def Solver.reduceDBStep (n : Nat) (extraLim : Frac) (acc : Solver × List Nat) (icr : Nat × Nat) :
    Solver × List Nat :=
  let (s, keep) := acc
  let c := s.clauseAt icr.2
  if 2 < c.lits.length ∧ ¬s.lockedAt icr.2 ∧ (icr.1 < n / 2 ∨ c.act < extraLim) then
    (s.removeClause icr.2, keep)
  else (s, keep ++ [icr.2])

/-- `reduceDB()` (Solver.cc 586-603).  (`checkGarbage()` relocates the
arena in the C code; the list arena has stable references, so it is the
identity here.) -/
def Solver.reduceDB (s : Solver) : Solver :=
  let extraLim : Frac := s.claInc / (s.learnts.length : Frac)
  let sorted := s.sortedLearnts
  let n := sorted.length
  let (s, keep) := ((List.range n).zip sorted).foldl (Solver.reduceDBStep n extraLim) (s, [])
  { s with learnts := keep }

/-! ## simplify (Solver.cc 606-691) -/

/-- The false-literal trimming loop of `removeSatisfied`:
`c[k--] = c[c.size()-1]; c.pop();` for `k ≥ 2`. -/
def Solver.trimFalse (s : Solver) (lits : List Lit) (k fuel : Nat) : List Lit :=
  match fuel with
  | 0 => lits
  | fuel + 1 =>
    if k < lits.length then
      if s.valueL (lits.getD k defaultLit) = .f then
        s.trimFalse ((lits.set k ((lits.getLast?).getD defaultLit)).dropLast) k fuel
      else s.trimFalse lits (k + 1) fuel
    else lits

/-- `removeSatisfied(cs)` (Solver.cc 606-625): drop satisfied clauses,
trim false literals (beyond the watches) from the rest. -/
def Solver.removeSatisfiedIn (s : Solver) (refs : List Nat) : Solver × List Nat :=
  refs.foldl
    (fun (acc : Solver × List Nat) cr =>
      let (s, keep) := acc
      let c := s.clauseAt cr
      if s.satisfiedC c then (s.removeClause cr, keep)
      else
        let lits := s.trimFalse c.lits 2 (2 * c.lits.length + 1)
        (s.setClauseLits cr lits, keep ++ [cr]))
    (s, [])

/-- `rebuildOrderHeap()` (Solver.cc 628-635): rebuild from the unassigned
decision variables. -/
def Solver.rebuildOrderHeap (s : Solver) : Solver :=
  let vs := (List.range s.nVars).filter
    (fun v => s.decisionFlag.getD v false ∧ s.valueVar v = .undef)
  { s with heap := vs }

/-- The `remove_satisfied` block of `simplify()` (Solver.cc 657-680):
remove satisfied original clauses, mark the released variables, shrink
the trail past them (re-reading it in full: `qhead := trail.size()`),
and move the released variables to the free list. -/
def Solver.simplifyRS (s : Solver) : Solver :=
  let (s, keepC) := s.removeSatisfiedIn s.clauses
  let s := { s with clauses := keepC }
  let s := s.releasedVars.foldl (fun s v => { s with seen := s.seen.set v 1 }) s
  let newTrail := s.trail.filter (fun l => s.seen.getD l.var 0 = 0)
  let s := { s with trail := newTrail, qhead := newTrail.length }
  let s := s.releasedVars.foldl (fun s v => { s with seen := s.seen.set v 0 }) s
  { s with freeVars := s.freeVars ++ s.releasedVars, releasedVars := [] }

/-- `simplify()` (Solver.cc 646-691). -/
def Solver.simplify (opts : Opts) (s : Solver) (fuel : Nat) : Bool × Solver :=
  if ¬s.ok then (false, { s with ok := false })
  else
    let (confl, s) := s.propagate fuel
    if confl ≠ none then (false, { s with ok := false })
    else if (s.nAssigns : Int) = s.simpDBAssigns ∨ 0 < s.simpDBProps then (true, s)
    else
      let (s, keepL) := s.removeSatisfiedIn s.learnts
      let s := { s with learnts := keepL }
      let s := if opts.removeSatisfiedFlag then s.simplifyRS else s
      let s := s.rebuildOrderHeap
      (true, { s with
        simpDBAssigns := (s.nAssigns : Int),
        simpDBProps := (s.clausesLiterals : Int) + (s.learntsLiterals : Int) })

/-! ## Decision heuristic (Solver.cc 254-281) and external oracles -/

/-- The external collaborators of the search loop, modelled as oracles:
* `rand`/`randIdx`: the pseudo-random draws (`drand`/`irand` live in
  `Solver.h`, not under src/; modelled from the spec §4.4 as an abstract
  stream of draws);
* `clock`: per-iteration wall-clock increments (spec §5 time budget);
* `smsCheck`: the minimality checker (spec §4.8: either passes or throws
  a forbidden graph, a list of signed edges);
* `sms010`: the 010-colorability checker (spec §4.8/§9: throws a list of
  lemma clauses over solver literals). -/
structure Oracle where
  rand : Nat → Frac
  randIdx : Nat → Nat → Nat
  clock : Nat → Frac
  smsCheck : List (List LBool) → Bool → Option (List (Bool × Nat × Nat))
  sms010 : List (List LBool) → Option (List (List Int))

/-- The activity-based pop loop of `pickBranchLit`:
`while (next == var_Undef || value(next) != l_Undef || !decision[next])`. -/
def Solver.pickBranchLoop (s : Solver) (next : Option Nat) : Nat → Option Nat × Solver
  | 0 => (next, s)
  | fuel + 1 =>
    let bad :=
      match next with
      | none => true
      | some v => s.valueVar v ≠ .undef ∨ ¬s.decisionFlag.getD v false
    if bad then
      match s.heap with
      | [] => (none, s)
      | _ :: _ =>
          let (v, s) := s.heapRemoveMin
          s.pickBranchLoop v fuel
    else (next, s)

/-- `pickBranchLit()` (Solver.cc 254-281). -/
def Solver.pickBranchLit (opts : Opts) (O : Oracle) (s : Solver) : Option Lit × Solver :=
  let d := O.rand s.randTick
  let s := { s with randTick := s.randTick + 1 }
  let (next, s) :=
    if d < opts.randomVarFreq ∧ s.heap ≠ [] then
      let idx := O.randIdx s.randTick s.heap.length % s.heap.length
      let s := { s with randTick := s.randTick + 1 }
      let v := s.heap.getD idx 0
      let s :=
        if s.valueVar v = .undef ∧ s.decisionFlag.getD v false then
          { s with rndDecisions := s.rndDecisions + 1 }
        else s
      (some v, s)
    else (none, s)
  let (next, s) := s.pickBranchLoop next (s.heap.length + 1)
  match next with
  | none => (none, s)
  | some v =>
      if s.userPol.getD v .undef ≠ .undef then
        (some (mkLit v (s.userPol.getD v .undef = .t)), s)
      else if opts.rndPol then
        let d2 := O.rand s.randTick
        (some (mkLit v (d2 < 1 / 2)), { s with randTick := s.randTick + 1 })
      else (some (mkLit v (s.polarity.getD v true)), s)

/-! ## SMS propagator wrapper (SMSPropagator.cc) -/

/-- `config.edges[i][j]`: the DIMACS variable number of edge `{i,j}`.
Modelled from the spec (glossary): "a SAT variable `i*(i-1)/2 + j + 1`
(for `j < i`)"; the table is symmetric (`sms.hpp` is not under src/). -/
def edgeVarNum (i j : Nat) : Nat :=
  if j < i then i * (i - 1) / 2 + j + 1 else j * (j - 1) / 2 + i + 1

/-- `i2l(i) = mkLit(abs(i)-1, i < 0)` (Solver.h; modelled from the spec
§6 literal encoding `±(var+1)`). -/
def i2l (i : Int) : Lit := mkLit (i.natAbs - 1) (i < 0)

/-- `l2i` (Solver.h; inverse encoding, modelled from the spec §6). -/
def l2i (l : Lit) : Int := (if l.sgn then -1 else 1) * ((l.var : Int) + 1)

/-- `getAdjMatrix()` (SMSPropagator.cc): the `n × n` symmetric matrix of
edge-variable values, diagonal unknown. -/
def Solver.getAdjMatrix (opts : Opts) (s : Solver) : List (List LBool) :=
  (List.range opts.vertices).map (fun i =>
    (List.range opts.vertices).map (fun j =>
      if i = j then .undef else s.valueL (i2l (edgeVarNum i j))))

/-- `blockingClause(fg)` (SMSPropagator.cc): a forbidden graph, a list of
(signed, edge) pairs, to a clause of solver literals. -/
def fgToClause (fg : List (Bool × Nat × Nat)) : List Lit :=
  fg.map (fun e => mkLit (edgeVarNum e.2.1 e.2.2 - 1) e.1)

/-- `blockingClause(clause_t)` (SMSPropagator.cc): raw signed integers to
solver literals. -/
def intsToClause (cl : List Int) : List Lit := cl.map i2l

/-- The assignment-cutoff "cube blocker" branch of `checkAssignment`
(SMSPropagator.cc; printing omitted). -/
def Solver.checkCutoff (opts : Opts) (s : Solver) (fuel : Nat) : Int × Solver :=
  if opts.acPrerunTime ≠ 0 ∧ opts.acPrerunTime < s.solveTime then
    let m := opts.vertices * (opts.vertices - 1) / 2
    let assigned := (List.range m).filter (fun v => s.valueVar v ≠ .undef)
    let bc := assigned.map (fun v => mkLit v (s.valueVar v = .t))
    if opts.assignmentCutoff ≤ assigned.length then
      let (okb, s) := s.addClauseDuringSearch opts bc fuel
      if okb then (0, s) else (-1, s)
    else (1, s)
  else (1, s)

/-- `SMSPropagator::checkAssignment(is_full_assignment)`
(SMSPropagator.cc): consult the minimality checker, then (on full
assignments, when enabled) the 010-colorability checker — absorbing the
first lemma clause only — then the cube-blocker branch.
Returns 1 (minimal / pass), 0 (lemma absorbed), or -1 (UNSAT). -/
def Solver.checkAssignment (opts : Opts) (O : Oracle) (s : Solver) (isFull : Bool)
    (fuel : Nat) : Int × Solver :=
  let matrix := s.getAdjMatrix opts
  match O.smsCheck matrix isFull with
  | some fg =>
      let (okb, s) := s.addClauseDuringSearch opts (fgToClause fg) fuel
      if okb then (0, s) else (-1, s)
  | none =>
      if isFull ∧ opts.prop010 then
        match O.sms010 matrix with
        | some (cl :: _) =>
            let (okb, s) := s.addClauseDuringSearch opts (intsToClause cl) fuel
            if okb then (0, s) else (-1, s)
        | _ => s.checkCutoff opts fuel
      else s.checkCutoff opts fuel

/-! ## The search loop (Solver.cc 762-900) and the solve driver (946-993) -/

/-- `progressEstimate()` (Solver.cc 903-915). -/
def Solver.progressEstimate (s : Solver) : Frac :=
  let F : Frac := 1 / (s.nVars : Frac)
  let prog := (List.range (s.decisionLevel + 1)).foldl
    (fun acc i =>
      let beg := if i = 0 then 0 else s.trailLim.getD (i - 1) 0
      let fin := if i = s.decisionLevel then s.trail.length else s.trailLim.getD i 0
      acc + F ^ i * ((fin : Frac) - (beg : Frac)))
    0
  prog / (s.nVars : Frac)

/-- `withinBudget()` (Solver.h; modelled from the spec §5/§7: interrupt
flag, conflict/propagation budgets, and this repository's wall-clock
`time_budget` checked against the accumulated `solve_time`). -/
def Solver.withinBudget (s : Solver) : Bool :=
  ¬s.asynchInterrupt ∧
    (s.conflictBudget < 0 ∨ (s.conflicts : Int) < s.conflictBudget) ∧
    (s.propagationBudget < 0 ∨ (s.propagationsStat : Int) < s.propagationBudget) ∧
    (s.timeBudget < 0 ∨ s.solveTime < s.timeBudget)

/-- Outcome of one iteration of the search loop: continue with a new
state and conflict count, or return from `search`. -/
inductive SearchStep
  | cont (s : Solver) (conflictC : Nat)
  | stop (r : LBool) (s : Solver)
deriving Repr

/-- The CONFLICT branch of the search loop below the level-0 check
(Solver.cc 781-808). -/
def Solver.searchConflict (opts : Opts) (s : Solver) (cr : Nat) (fuel : Nat) : Solver :=
  let (s, lc, btl) := s.analyze opts cr fuel
  let s := s.cancelUntil opts btl
  let s :=
    match lc with
    | [l] => s.uncheckedEnqueue l none
    | _ =>
        let (cr2, s) := s.allocClause lc true
        let s := { s with learnts := s.learnts ++ [cr2] }
        let s := s.attachClause cr2
        let s := s.claBumpActivity cr2
        s.uncheckedEnqueue (lc.getD 0 defaultLit) (some cr2)
  let s := s.varDecayActivity opts
  let s := s.claDecayActivity opts
  let cnt : Int := s.learntsizeAdjustCnt - 1
  if cnt = 0 then
    let confl' := s.learntsizeAdjustConfl * opts.learntsizeAdjustInc
    { s with learntsizeAdjustConfl := confl',
             learntsizeAdjustCnt := Frac.floorI confl',
             maxLearnts := s.maxLearnts * opts.learntsizeInc }
  else { s with learntsizeAdjustCnt := cnt }

/-- Result of the assumption-branching `while` loop
(Solver.cc 845-858). -/
inductive AssumpRes
  | next (l : Option Lit)
  | unsatFinal
deriving Repr

/-- The assumption loop: dummy decision levels for satisfied
assumptions, `analyzeFinal` on falsified ones, otherwise the next
assumption to branch on (fuel: one level per iteration). -/
def Solver.assumpLoop (s : Solver) : Nat → AssumpRes × Solver
  | 0 => (.next none, s)
  | fuel + 1 =>
    if s.decisionLevel < s.assumptions.length then
      let p := s.assumptions.getD s.decisionLevel defaultLit
      if s.valueL p = .t then s.newDecisionLevel.assumpLoop fuel
      else if s.valueL p = .f then (.unsatFinal, s.analyzeFinal (negLit p))
      else (.next (some p), s)
    else (.next none, s)

/-- The NO CONFLICT branch of the search loop (Solver.cc 810-898):
budget check, level-0 simplification, learnt-DB reduction, the SMS
minimality check, then assumption or heuristic branching. -/
def Solver.searchNoConflict (opts : Opts) (O : Oracle) (nofConflicts : Int)
    (conflictC : Nat) (s : Solver) (fuel : Nat) : SearchStep :=
  if (0 ≤ nofConflicts ∧ nofConflicts ≤ (conflictC : Int)) ∨ ¬s.withinBudget then
    let s := { s with progressEst := s.progressEstimate }
    .stop .undef (s.cancelUntil opts 0)
  else
    let (simpOk, s) :=
      if s.decisionLevel = 0 then s.simplify opts (s.nVars + 1) else (true, s)
    if ¬simpOk then .stop .f s
    else
      let s :=
        if s.maxLearnts ≤ (s.learnts.length : Frac) - (s.nAssigns : Frac) then s.reduceDB else s
      let m := opts.vertices * (opts.vertices - 1) / 2
      let isFullGraph := (List.range m).all (fun v => s.valueVar v ≠ .undef)
      let (st, s) := s.checkAssignment opts O isFullGraph fuel
      if st = 0 then .cont s conflictC
      else if st = -1 then .stop .f s
      else
        let (ar, s) := s.assumpLoop (s.assumptions.length + 1)
        match ar with
        | .unsatFinal => .stop .f s
        | .next nxt =>
            let (nxt, s) :=
              match nxt with
              | some p => (some p, s)
              | none =>
                  let s := { s with decisions := s.decisions + 1 }
                  s.pickBranchLit opts O
            match nxt with
            | none => .stop .t s
            | some l => .cont (s.newDecisionLevel.uncheckedEnqueue l none) conflictC

/-- One iteration of the search loop (Solver.cc 771-899): clock
bookkeeping, propagation, then the conflict / no-conflict branch. -/
def Solver.searchBody (opts : Opts) (O : Oracle) (nofConflicts : Int) (s : Solver)
    (conflictC : Nat) (fuel : Nat) : SearchStep :=
  let s := { s with solveTime := s.solveTime + O.clock s.ticks, ticks := s.ticks + 1 }
  let (confl, s) := s.propagate (s.nVars + 1)
  match confl with
  | some cr =>
      let s := { s with conflicts := s.conflicts + 1 }
      if s.decisionLevel = 0 then .stop .f s
      else .cont (s.searchConflict opts cr fuel) (conflictC + 1)
  | none => s.searchNoConflict opts O nofConflicts conflictC fuel

/-- Iterate the search loop, recording the state at the top of each
executed iteration.  `iters` is the iteration fuel; exhaustion returns
`l_Undef` like an exhausted budget (it cannot be reached with enough
fuel). -/
def Solver.searchGo (opts : Opts) (O : Oracle) (nofConflicts : Int) (fuel : Nat) :
    Nat → Solver → Nat → LBool × Solver × List Solver
  | 0, s, _ => (.undef, s, [])
  | iters + 1, s, cC =>
    match s.searchBody opts O nofConflicts cC fuel with
    | .stop r s' => (r, s', [s])
    | .cont s' cC' =>
        let (r, s'', tr) := Solver.searchGo opts O nofConflicts fuel iters s' cC'
        (r, s'', s :: tr)

/-- `search(nof_conflicts)` (Solver.cc 762-900). -/
def Solver.search (opts : Opts) (O : Oracle) (nofConflicts : Int) (fuel iters : Nat)
    (s : Solver) : LBool × Solver :=
  let r := Solver.searchGo opts O nofConflicts fuel iters { s with starts := s.starts + 1 } 0
  (r.1, r.2.1)

/-- The loop-top states of a `search` call (the search loop's
"iteration tops", where the spec's invariants are stated). -/
def Solver.searchTrace (opts : Opts) (O : Oracle) (nofConflicts : Int) (fuel iters : Nat)
    (s : Solver) : List Solver :=
  (Solver.searchGo opts O nofConflicts fuel iters { s with starts := s.starts + 1 } 0).2.2

/-- The restart loop of `solve_` (Solver.cc 971-977), also returning the
list of conflict limits passed to `search` (the `int` cast of
`rest_base * restart_first`). -/
def Solver.solveLoop (opts : Opts) (O : Oracle) (fuel iters : Nat) :
    Nat → Nat → Solver → LBool × Solver × List Int
  | 0, _, s => (.undef, s, [])
  | rfuel + 1, curr, s =>
    let restBase : Frac :=
      if opts.lubyRestart then luby opts.restartInc curr else opts.restartInc ^ curr
    let lim : Int := Frac.floorI (restBase * (opts.restartFirst : Frac))
    let (status, s) := s.search opts O lim fuel iters
    if status = .undef then
      if ¬s.withinBudget then (.undef, s, [lim])
      else
        let (r, s', ls) := Solver.solveLoop opts O fuel iters rfuel (curr + 1) s
        (r, s', lim :: ls)
    else (status, s, [lim])

/-- The post-loop bookkeeping of `solve_` (Solver.cc 983-989): extend
and copy the model on SAT; on UNSAT with an empty assumption-conflict,
clear `ok` for good. -/
def Solver.solveFinish (status : LBool) (s : Solver) : Solver :=
  if status = .t then { s with model := (List.range s.nVars).map s.valueVar }
  else if status = .f ∧ s.conflictSet = [] then { s with ok := false }
  else s

/-- `solve_()` (Solver.cc 946-993), returning in addition the conflict
limits handed to `search`.  When the solver is already infeasible
(`!ok`) it returns UNSAT before touching anything but the cleared
`model` and `conflict`. -/
def Solver.solveMain (opts : Opts) (O : Oracle) (fuel iters rfuel : Nat) (s : Solver) :
    LBool × Solver × List Int :=
  if ¬s.ok then (.f, { s with model := [], conflictSet := [] }, [])
  else
    let s := { s with model := [], conflictSet := [], solves := s.solves + 1, solveTime := 0 }
    let ml : Frac := (s.numClausesStat : Frac) * opts.learntsizeFactor
    let ml := if ml < (opts.minLearntsLim : Frac) then (opts.minLearntsLim : Frac) else ml
    let s := { s with maxLearnts := ml,
                      learntsizeAdjustConfl := opts.learntsizeAdjustStartConfl,
                      learntsizeAdjustCnt := Frac.floorI opts.learntsizeAdjustStartConfl }
    let (status, s, lims) := Solver.solveLoop opts O fuel iters rfuel 0 s
    (status, (Solver.solveFinish status s).cancelUntil opts 0, lims)

/-! ## Concrete scenario states (used by witnesses and counterexamples)

All of them are reachable through the embedded construction API
(`newVar`, `addClause_`, decisions and propagation). -/

/-- The default options (the option registry's default values). -/
def stdOpts : Opts := {}

/-- An oracle whose minimality/coloring checkers always pass, with a
fixed pseudo-random stream and a zero-cost clock. -/
def passOracle : Oracle :=
  ⟨fun _ => 1 / 2, fun _ _ => 0, fun _ => 0, fun _ _ => none, fun _ => none⟩

/-- Two variables, the unit clause `v0`, and assumptions `[v0, v1]`:
after level-0 propagation the first assumption is already satisfied, so
the search loop pushes a dummy decision level for it. -/
def assumpSolver : Solver :=
  let s : Solver := {}
  let s := (s.newVar .undef true).2
  let s := (s.newVar .undef true).2
  let s := (s.addClauseInner [mkLit 0 false] 10).2
  { s with assumptions := [mkLit 0 false, mkLit 1 false] }

/-- One variable with the unit clause `v0` added at level 0: the
literal `v0` is true at level 0. -/
def rootTrueSolver : Solver :=
  let s : Solver := {}
  let s := (s.newVar .undef true).2
  (s.addClauseInner [mkLit 0 false] 10).2

/-- Three variables, clause `¬v1 ∨ v2`, decision `v0` at level 1 and
decision `v1` at level 2 (propagating `v2` at level 2): the clause
`¬v1 ∨ ¬v2` is then falsified with both literals at the top level. -/
def twoLevelSolver : Solver :=
  let s : Solver := {}
  let s := (s.newVar .undef true).2
  let s := (s.newVar .undef true).2
  let s := (s.newVar .undef true).2
  let s := (s.addClauseInner [mkLit 1 true, mkLit 2 false] 10).2
  let s := s.newDecisionLevel
  let s := s.uncheckedEnqueue (mkLit 0 false) none
  let s := (s.propagate 10).2
  let s := s.newDecisionLevel
  let s := s.uncheckedEnqueue (mkLit 1 false) none
  (s.propagate 10).2

/-- Two variables and all four binary clauses over them: UNSAT, found by
the search loop itself (one learnt unit, then a root conflict). -/
def unsatSquareSolver : Solver :=
  let s : Solver := {}
  let s := (s.newVar .undef true).2
  let s := (s.newVar .undef true).2
  let s := (s.addClauseInner [mkLit 0 false, mkLit 1 false] 10).2
  let s := (s.addClauseInner [mkLit 0 false, mkLit 1 true] 10).2
  let s := (s.addClauseInner [mkLit 0 true, mkLit 1 false] 10).2
  (s.addClauseInner [mkLit 0 true, mkLit 1 true] 10).2

/-- The greatest decision level among the literals of a clause (0 for
the empty clause). -/
def Solver.maxLevelOf (s : Solver) (cls : List Lit) : Nat :=
  (cls.map (fun l => s.levelOf l.var)).foldl max 0

/-- The conflicting-clause step of the ingestion algorithm as the spec
words it: backjump to the conflict level `h`, attach the (ingestion-
sorted) clause as an original clause, run conflict analysis on it as if
it were just discovered, backjump to the derived level, learn the
analysis output (enqueue it directly when unit) and enqueue its
asserting literal; report OK. -/
def Solver.ingestConflictingSpec (opts : Opts) (s : Solver) (clause : List Lit)
    (h fuel : Nat) : Bool × Solver :=
  let s := s.cancelUntil opts h
  let (cr, s) := s.allocClause clause false
  let s := { s with clauses := s.clauses ++ [cr] }
  let s := s.attachClause cr
  let (s, learnt, btlevel) := s.analyze opts cr fuel
  let s := s.cancelUntil opts btlevel
  match learnt with
  | [l] => (true, s.uncheckedEnqueue l none)
  | _ =>
      let (cr2, s) := s.allocClause learnt true
      let s := { s with learnts := s.learnts ++ [cr2] }
      let s := s.attachClause cr2
      let s := s.claBumpActivity cr2
      (true, s.uncheckedEnqueue (learnt.getD 0 defaultLit) (some cr2))

/-- A four-learnt-clause state exercising `reduceDB`: three long
clauses with activities 1, 8 and 6 and one binary clause, no assignment
(so nothing is locked), `cla_inc = 4` (so `extra_lim = 1`). -/
def reduceDBSolver : Solver :=
  { arena := [⟨[mkLit 0 false, mkLit 1 false, mkLit 2 false], true, 1, 0⟩,
              ⟨[mkLit 0 true, mkLit 1 true], true, 0, 0⟩,
              ⟨[mkLit 2 false, mkLit 3 false, mkLit 4 false], true, 8, 0⟩,
              ⟨[mkLit 1 false, mkLit 3 true, mkLit 5 false], true, 6, 0⟩],
    learnts := [0, 1, 2, 3],
    claInc := 4 }

/-- The state of a `SearchStep`, whichever constructor. -/
def SearchStep.state : SearchStep → Solver
  | .cont s _ => s
  | .stop _ s => s

/-- The search-loop invariant on the queue/trail bookkeeping: the
propagation head is inside the trail, the decision-level boundaries are
non-decreasing, and every boundary is inside the trail. -/
def SearchInv (s : Solver) : Prop :=
  s.qhead ≤ s.trail.length ∧ s.trailLim.Pairwise (· ≤ ·) ∧
    ∀ x ∈ s.trailLim, x ≤ s.trail.length

instance (s : Solver) : Decidable (SearchInv s) := by
  unfold SearchInv
  infer_instance

/-- Two states with the same propagation head, trail and level
boundaries. -/
def Solver.trailEq (s1 s2 : Solver) : Prop :=
  s1.qhead = s2.qhead ∧ s1.trail = s2.trail ∧ s1.trailLim = s2.trailLim

/-- Same head and boundaries, a possibly longer trail. -/
def Solver.trailGrow (s1 s2 : Solver) : Prop :=
  s1.qhead = s2.qhead ∧ s1.trailLim = s2.trailLim ∧
    s2.trail.length ≤ s1.trail.length

/-- Three variables and the attached ternary clause `v0 ∨ v1 ∨ v2`,
with all three variables then assigned false and the propagation-queue
head moved past the trail without running the propagation loop.  The
state is well-typed and the clause is properly attached, but it violates
the solver's queue discipline (the code itself only moves `qhead` by
propagating): `propagate` returns no conflict here while the clause is
falsified. -/
def cexC4Solver : Solver :=
  let s : Solver := {}
  let s := (s.newVar .undef true).2
  let s := (s.newVar .undef true).2
  let s := (s.newVar .undef true).2
  let s := (s.addClauseInner [mkLit 0 false, mkLit 1 false, mkLit 2 false] 10).2
  let s := s.newDecisionLevel
  let s := s.uncheckedEnqueue (mkLit 0 true) none
  let s := s.uncheckedEnqueue (mkLit 1 true) none
  let s := s.uncheckedEnqueue (mkLit 2 true) none
  { s with qhead := s.trail.length }

/-! ### Proof of C10 -/

/-- In a `≤`-sorted list, every element of `l.drop m` is at least `l[m]`. -/
theorem sorted_getElem_le_of_mem_drop {l : List Int} (hs : l.Sorted (· ≤ ·)) {m : Nat}
    (hm : m < l.length) {a : Int} (ha : a ∈ l.drop m) : l[m] ≤ a := by
  rw [List.mem_drop_iff_getElem] at ha
  obtain ⟨i, hi, rfl⟩ := ha
  rcases Nat.eq_zero_or_pos i with rfl | hpos
  · simp
  · exact (List.pairwise_iff_getElem.mp hs m (m + i) hm (by omega) (by omega))

/-- In a `≤`-sorted list, every element of `l.take m` is at most `l[m]`. -/
theorem sorted_mem_take_le_getElem {l : List Int} (hs : l.Sorted (· ≤ ·)) {m : Nat}
    (hm : m < l.length) {a : Int} (ha : a ∈ l.take m) : a ≤ l[m] := by
  rw [List.mem_take_iff_getElem] at ha
  obtain ⟨i, hi, rfl⟩ := ha
  have hilt : i < m := by omega
  exact (List.pairwise_iff_getElem.mp hs i m (by omega) hm hilt)

/-- The fuel lemma behind C10: with fuel at least the range length, the
binary search decides membership on sorted input. -/
theorem binSearchGo_eq_mem (fuel : Nat) :
    ∀ (l : List Int) (val : Int), l.length ≤ fuel → l.Sorted (· ≤ ·) →
      binSearchGo fuel l val = if val ∈ l then 1 else 0 := by
  induction fuel with
  | zero =>
      intro l val hlen _
      have : l = [] := List.length_eq_zero.mp (by omega)
      subst this
      simp [binSearchGo]
  | succ fuel ih =>
      intro l val hlen hs
      rw [binSearchGo]
      by_cases h1 : l.length < 1
      · have : l = [] := List.length_eq_zero.mp (by omega)
        subst this
        simp
      · by_cases h2 : l.length = 1
        · obtain ⟨a, rfl⟩ := List.length_eq_one.mp h2
          simp only [if_neg h1, if_pos h2, List.mem_singleton]
          have hga : ([a] : List Int).getD 0 0 = a := by simp [List.getD]
          rw [hga]
          by_cases hav : a = val
          · subst hav
            simp
          · rw [if_neg hav, if_neg (fun h => hav h.symm)]
        · simp only [if_neg h1, if_neg h2]
          have hml : l.length / 2 < l.length := by omega
          have hm1 : 1 ≤ l.length / 2 := by omega
          have hgetd : l.getD (l.length / 2) 0 = l[l.length / 2] := by
            simp [List.getD_eq_getElem?_getD, List.getElem?_eq_getElem hml]
          by_cases hle : l.getD (l.length / 2) 0 ≤ val
          · rw [if_pos hle]
            have hdrop : (l.drop (l.length / 2)).Sorted (· ≤ ·) :=
              hs.sublist (List.drop_sublist _ l)
            rw [ih _ val (by simp; omega) hdrop]
            have hmem : val ∈ l.drop (l.length / 2) ↔ val ∈ l := by
              constructor
              · exact List.mem_of_mem_drop
              · intro hv
                rcases List.mem_append.mp
                    (by rw [List.take_append_drop (l.length / 2) l]; exact hv) with h | h
                · have hvm : val ≤ l[l.length / 2] := sorted_mem_take_le_getElem hs hml h
                  have hmv : l[l.length / 2] ≤ val := by rw [← hgetd]; exact hle
                  rw [List.mem_drop_iff_getElem]
                  exact ⟨0, by omega, by simpa using le_antisymm hmv hvm⟩
                · exact h
            simp only [hmem]
          · rw [if_neg hle]
            have htake : (l.take (l.length / 2)).Sorted (· ≤ ·) :=
              hs.sublist (List.take_sublist _ l)
            rw [ih _ val (by simp; omega) htake]
            have hmval : val < l[l.length / 2] := by rw [← hgetd]; omega
            have hmem : val ∈ l.take (l.length / 2) ↔ val ∈ l := by
              constructor
              · exact List.mem_of_mem_take
              · intro hv
                rcases List.mem_append.mp
                    (by rw [List.take_append_drop (l.length / 2) l]; exact hv) with h | h
                · exact h
                · exact absurd (sorted_getElem_le_of_mem_drop hs hml h) (by omega)
            simp only [hmem]

/-- C10: on a `≤`-sorted list, the binary-search helper `in` returns 1
exactly when the value occurs in the range, and 0 otherwise (in
particular 0 on the empty range, where the membership is false). -/
theorem C10_in_membership (l : List Int) (val : Int) (hs : l.Sorted (· ≤ ·)) :
    binSearchIn l val = if val ∈ l then 1 else 0 :=
  binSearchGo_eq_mem (l.length + 1) l val (by omega) hs

/-- C10 witness: the theorem applied at a concrete sorted list, both for
a present and an absent value, with the sortedness hypothesis discharged
concretely. -/
theorem C10_in_membership_witness :
    ([1, 3, 5] : List Int).Sorted (· ≤ ·) ∧
      binSearchIn [1, 3, 5] 3 = (if (3 : Int) ∈ ([1, 3, 5] : List Int) then 1 else 0) :=
  ⟨by decide, C10_in_membership [1, 3, 5] 3 (by decide)⟩

/-! ### C1: refutation at the failing input -/

/-- C1 (code bug): at vertices `n = 3` with a model whose edge variable 0
is true (here: all edges true), the clause `run_solver_enumerate` hands to
`addClause` is not the claimed one: it additionally contains three copies
of the value-initialized literal (variable 0, positive), and therefore
contains both polarities of variable 0, so `addClause` drops it as a
tautology and the model is never blocked. -/
theorem C1_enum_blocking_clause_bug :
    enumBlockingClause 3 [.t, .t, .t] ≠ claimedBlockingClause 3 [.t, .t, .t] ∧
    defaultLit ∈ enumBlockingClause 3 [.t, .t, .t] ∧
    defaultLit ∉ claimedBlockingClause 3 [.t, .t, .t] ∧
    mkLit 0 false ∈ enumBlockingClause 3 [.t, .t, .t] ∧
    negLit (mkLit 0 false) ∈ enumBlockingClause 3 [.t, .t, .t] := by
  decide

/-! ### C9: Luby restart limits -/

/-- Every conflict limit recorded by the restart loop, started at
restart counter `curr`, is the `int` cast of
`luby(restart_inc, k) * restart_first` at its restart index. -/
theorem solveLoop_limit_shape (opts : Opts) (O : Oracle) (fuel iters : Nat)
    (hl : opts.lubyRestart = true) :
    ∀ (rfuel curr : Nat) (s : Solver) (k : Nat),
      k < (Solver.solveLoop opts O fuel iters rfuel curr s).2.2.length →
      (Solver.solveLoop opts O fuel iters rfuel curr s).2.2.getD k 0 =
        Frac.floorI (luby opts.restartInc (curr + k) * (opts.restartFirst : Frac)) := by
  intro rfuel
  induction rfuel with
  | zero =>
      intro curr s k hk
      simp [Solver.solveLoop] at hk
  | succ rfuel ih =>
      intro curr s k hk
      rw [Solver.solveLoop] at hk ⊢
      rw [hl] at hk ⊢
      simp only [if_true] at hk ⊢
      rcases hres : Solver.search opts O
          (Frac.floorI (luby opts.restartInc curr * (opts.restartFirst : Frac))) fuel iters s
        with ⟨st, smid⟩
      rw [hres] at hk
      dsimp only at hk ⊢
      by_cases hst : st = .undef
      · rw [if_pos hst] at hk ⊢
        by_cases hb : ¬smid.withinBudget = true
        · rw [if_pos hb] at hk ⊢
          (try dsimp only at hk ⊢)
          simp only [List.length_singleton] at hk
          have hk0 : k = 0 := by omega
          subst hk0
          simp [List.getD]
        · rw [if_neg hb] at hk ⊢
          (try dsimp only at hk ⊢)
          rcases k with _ | k
          · simp [List.getD]
          · rw [List.length_cons] at hk
            have hx := ih (curr + 1) smid k (Nat.lt_of_succ_lt_succ hk)
            rw [List.getD_cons_succ, hx]
            have harith : curr + 1 + k = curr + (k + 1) := by omega
            rw [harith]
      · rw [if_neg hst] at hk ⊢
        (try dsimp only at hk ⊢)
        simp only [List.length_singleton] at hk
        have hk0 : k = 0 := by omega
        subst hk0
        simp [List.getD]

/-- C9: with luby restarts enabled, the conflict limit handed to
`search` for the k-th restart is `luby(restart_inc, k) * restart_first`
(as the code's `int` cast of that product), and `luby 2` produces
exactly the Luby sequence 1,1,2,1,1,2,4,1,1,2,1,1,2,4,8,… at
indices 0..14. -/
theorem C9_luby_restart_limits (opts : Opts) (O : Oracle) (fuel iters rfuel : Nat)
    (s : Solver) (hl : opts.lubyRestart = true) :
    (∀ k, k < (s.solveMain opts O fuel iters rfuel).2.2.length →
        (s.solveMain opts O fuel iters rfuel).2.2.getD k 0 =
          Frac.floorI (luby opts.restartInc k * (opts.restartFirst : Frac))) ∧
      (List.range 15).map (fun k => luby 2 k) =
        [1, 1, 2, 1, 1, 2, 4, 1, 1, 2, 1, 1, 2, 4, 8] := by
  constructor
  · intro k hk
    unfold Solver.solveMain at hk ⊢
    by_cases hok : s.ok
    · simp only [hok, not_true_eq_false, Bool.false_eq_true, if_false] at hk ⊢
      have hx := solveLoop_limit_shape opts O fuel iters hl rfuel 0
      simp only [Nat.zero_add] at hx
      exact hx _ k hk
    · simp only [hok, not_false_eq_true, Bool.not_true, if_true] at hk
      simp at hk
  · decide

/-- C9 witness: the theorem applied at the default options (where luby
restarts are enabled) on a concrete UNSAT instance. -/
theorem C9_luby_restart_limits_witness :
    stdOpts.lubyRestart = true ∧
      ((∀ k, k < (unsatSquareSolver.solveMain stdOpts passOracle 50 50 10).2.2.length →
          (unsatSquareSolver.solveMain stdOpts passOracle 50 50 10).2.2.getD k 0 =
            Frac.floorI (luby stdOpts.restartInc k * (stdOpts.restartFirst : Frac))) ∧
        (List.range 15).map (fun k => luby 2 k) =
          [1, 1, 2, 1, 1, 2, 4, 1, 1, 2, 1, 1, 2, 4, 8]) :=
  ⟨by decide,
   C9_luby_restart_limits stdOpts passOracle 50 50 10 unsatSquareSolver (by decide)⟩

/-! ### C8: permanent infeasibility after UNSAT at root -/

/-- `cancelOne` changes only assignment, phase and heap state. -/
theorem cancelOne_preserves (opts : Opts) (ll : Nat) (s : Solver) (pl : Nat × Lit) :
    (Solver.cancelOne opts ll s pl).ok = s.ok ∧
      (Solver.cancelOne opts ll s pl).conflictSet = s.conflictSet ∧
      (Solver.cancelOne opts ll s pl).starts = s.starts ∧
      (Solver.cancelOne opts ll s pl).solves = s.solves := by
  unfold Solver.cancelOne Solver.insertVarOrder
  dsimp only
  split <;> split <;> simp

/-- The undo fold of `cancelUntil` preserves the same fields. -/
theorem foldl_cancelOne_preserves (opts : Opts) (ll : Nat) (l : List (Nat × Lit)) :
    ∀ (s : Solver),
      (l.foldl (Solver.cancelOne opts ll) s).ok = s.ok ∧
        (l.foldl (Solver.cancelOne opts ll) s).conflictSet = s.conflictSet ∧
        (l.foldl (Solver.cancelOne opts ll) s).starts = s.starts ∧
        (l.foldl (Solver.cancelOne opts ll) s).solves = s.solves := by
  induction l with
  | nil => intro s; simp
  | cons a l ih =>
      intro s
      rw [List.foldl_cons]
      have h1 := cancelOne_preserves opts ll s a
      have h2 := ih (Solver.cancelOne opts ll s a)
      exact ⟨h2.1.trans h1.1, h2.2.1.trans h1.2.1, h2.2.2.1.trans h1.2.2.1,
             h2.2.2.2.trans h1.2.2.2⟩

/-- `cancelUntil` preserves `ok`, `conflict`, `starts` and `solves`. -/
theorem cancelUntil_preserves (opts : Opts) (s : Solver) (lvl : Nat) :
    (s.cancelUntil opts lvl).ok = s.ok ∧
      (s.cancelUntil opts lvl).conflictSet = s.conflictSet ∧
      (s.cancelUntil opts lvl).starts = s.starts ∧
      (s.cancelUntil opts lvl).solves = s.solves := by
  unfold Solver.cancelUntil
  split
  · dsimp only
    have := foldl_cancelOne_preserves opts (s.trailLim.getD (s.trailLim.length - 1) 0)
      (((List.range s.trail.length).zip s.trail).drop (s.trailLim.getD lvl 0)).reverse
      { s with cflr := none }
    exact ⟨this.1, this.2.1, this.2.2.1, this.2.2.2⟩
  · simp

/-- After `solveFinish` on an UNSAT status and the final backjump to
level 0, an empty assumption-conflict forces `ok = false`. -/
theorem solveFinish_unsat_ok (opts : Opts) (st : LBool) (smid : Solver) (hst : st = .f)
    (hcs : ((Solver.solveFinish st smid).cancelUntil opts 0).conflictSet = []) :
    ((Solver.solveFinish st smid).cancelUntil opts 0).ok = false := by
  subst hst
  rw [(cancelUntil_preserves opts _ 0).2.1] at hcs
  rw [(cancelUntil_preserves opts _ 0).1]
  unfold Solver.solveFinish at hcs ⊢
  by_cases hempty : smid.conflictSet = []
  · simp [hempty]
  · simp [hempty] at hcs

/-- C8: once `solve_` has returned UNSAT with an empty
assumption-conflict, the solver is permanently infeasible: `ok` is
false, and every later `solve_` call (any options, oracles and fuel)
returns UNSAT immediately — the state is only changed by clearing
`model` and `conflict`; in particular `starts` and `solves` stay
untouched, so the search loop is never entered. -/
theorem C8_unsat_root_permanent (opts : Opts) (O : Oracle) (fuel iters rfuel : Nat)
    (s s' : Solver) (lims : List Int)
    (h : s.solveMain opts O fuel iters rfuel = (.f, s', lims))
    (hc : s'.conflictSet = []) :
    s'.ok = false ∧
      ∀ (t : Solver) (opts' : Opts) (O' : Oracle) (fuel' iters' rfuel' : Nat),
        t.ok = false →
          t.solveMain opts' O' fuel' iters' rfuel' =
            (.f, { t with model := [], conflictSet := [] }, []) ∧
          ({ t with model := [], conflictSet := [] } : Solver).ok = false ∧
          ({ t with model := [], conflictSet := [] } : Solver).starts = t.starts ∧
          ({ t with model := [], conflictSet := [] } : Solver).solves = t.solves := by
  constructor
  · unfold Solver.solveMain at h
    by_cases hok : s.ok
    · rw [if_neg (by simp [hok])] at h
      dsimp only at h
      have h1 := congrArg Prod.fst h
      dsimp only at h1
      have h2 := congrArg (fun p => p.2.1) h
      dsimp only at h2
      rw [← h2]
      exact solveFinish_unsat_ok opts _ _ h1 (by rw [h2, hc])
    · rw [Bool.not_eq_true] at hok
      simp only [hok, Bool.false_eq_true, not_false_eq_true, if_true] at h
      have h21 := congrArg (fun p => p.2.1) h
      dsimp only at h21
      rw [← h21]
  · intro t opts' O' fuel' iters' rfuel' ht
    refine ⟨?_, by simpa using ht, rfl, rfl⟩
    unfold Solver.solveMain
    simp only [ht, Bool.false_eq_true, not_false_eq_true, if_true]

/-- C8 witness: the theorem applied to a run of the embedded solver on
a concrete UNSAT instance found by search at the root; both hypotheses
evaluated concretely. -/
theorem C8_unsat_root_permanent_witness :
    unsatSquareSolver.solveMain stdOpts passOracle 50 50 10 =
      (.f, (unsatSquareSolver.solveMain stdOpts passOracle 50 50 10).2.1,
        (unsatSquareSolver.solveMain stdOpts passOracle 50 50 10).2.2) ∧
    (unsatSquareSolver.solveMain stdOpts passOracle 50 50 10).2.1.conflictSet = [] ∧
    (unsatSquareSolver.solveMain stdOpts passOracle 50 50 10).2.1.ok = false :=
  ⟨by decide, by decide,
    (C8_unsat_root_permanent stdOpts passOracle 50 50 10 unsatSquareSolver
      (unsatSquareSolver.solveMain stdOpts passOracle 50 50 10).2.1
      (unsatSquareSolver.solveMain stdOpts passOracle 50 50 10).2.2
      (by decide) (by decide)).1⟩

/-! ### C2: the UNSAT condition of `addClauseDuringSearch` -/

instance ingestLeTotal (s : Solver) : IsTotal Lit (ingestLe s) :=
  ⟨fun a b => by
    unfold ingestLe
    by_cases ha : s.valueL a = .undef
    · exact Or.inl (Or.inl ha)
    · by_cases hb : s.valueL b = .undef
      · exact Or.inr (Or.inl hb)
      · rcases Nat.le_total (s.levelOf b.var) (s.levelOf a.var) with h | h
        · exact Or.inl (Or.inr ⟨hb, h⟩)
        · exact Or.inr (Or.inr ⟨ha, h⟩)⟩

instance ingestLeTrans (s : Solver) : IsTrans Lit (ingestLe s) :=
  ⟨fun a b c hab hbc => by
    unfold ingestLe at hab hbc ⊢
    rcases hab with ha | ⟨hb, h1⟩
    · exact Or.inl ha
    · rcases hbc with hb' | ⟨hc, h2⟩
      · exact absurd hb' hb
      · exact Or.inr ⟨hc, le_trans h2 h1⟩⟩

/-- If the order relation pushes all `p`-elements to the front, the
`p`-prefix of a pairwise-ordered list contains every `p`-element. -/
theorem takeWhile_length_eq_countP {α : Type} {p : α → Bool} {r : α → α → Prop}
    (hr : ∀ a b, r a b → p b = true → p a = true) :
    ∀ {l : List α}, l.Pairwise r → (l.takeWhile p).length = l.countP p := by
  intro l
  induction l with
  | nil => simp
  | cons a t ih =>
      intro hp
      rcases List.pairwise_cons.mp hp with ⟨hab, ht⟩
      by_cases hpa : p a = true
      · simp [List.takeWhile_cons, hpa, List.countP_cons, ih ht]
      · have hz : t.countP p = 0 := List.countP_eq_zero.mpr (fun b hb hpb =>
          hpa (hr a b (hab b hb) hpb))
        simp [List.takeWhile_cons, hpa, List.countP_cons, hz]

/-- A full `takeWhile` prefix means every element satisfies `p`. -/
theorem all_of_takeWhile_length {α : Type} {p : α → Bool} :
    ∀ {l : List α}, (l.takeWhile p).length = l.length → ∀ x ∈ l, p x = true := by
  intro l
  induction l with
  | nil => simp
  | cons a t ih =>
      intro hlen x hx
      by_cases hpa : p a = true
      · rw [List.takeWhile_cons, if_pos hpa] at hlen
        simp only [List.length_cons, Nat.add_right_cancel_iff] at hlen
        rcases List.mem_cons.mp hx with rfl | hx'
        · exact hpa
        · exact ih hlen x hx'
      · rw [List.takeWhile_cons, if_neg hpa] at hlen
        simp at hlen

/-- `foldl max` is bounded by any common upper bound. -/
theorem foldl_max_le (l : List Nat) : ∀ (a c : Nat), a ≤ c → (∀ x ∈ l, x ≤ c) →
    l.foldl max a ≤ c := by
  induction l with
  | nil => intro a c h _; simpa using h
  | cons b t ih =>
      intro a c ha hall
      rw [List.foldl_cons]
      exact ih _ c (max_le ha (hall b (List.mem_cons_self b t))) fun x hx =>
        hall x (List.mem_cons_of_mem b hx)

/-- The initial accumulator bounds `foldl max` from below. -/
theorem le_foldl_max_init (l : List Nat) : ∀ (a : Nat), a ≤ l.foldl max a := by
  induction l with
  | nil => intro a; exact le_refl a
  | cons b t ih =>
      intro a
      rw [List.foldl_cons]
      exact le_trans (le_max_left a b) (ih (max a b))

/-- Every member bounds `foldl max` from below. -/
theorem le_foldl_max (l : List Nat) : ∀ (a x : Nat), x ∈ l → x ≤ l.foldl max a := by
  induction l with
  | nil => simp
  | cons b t ih =>
      intro a x hx
      rw [List.foldl_cons]
      rcases List.mem_cons.mp hx with rfl | hx'
      · exact le_trans (le_max_right a x) (le_foldl_max_init t (max a x))
      · exact ih _ x hx'

/-- `foldl max` equals any member that bounds everything (with a small
enough accumulator). -/
theorem foldl_max_eq_of_mem (l : List Nat) (a m : Nat) (hmem : m ∈ l)
    (hall : ∀ x ∈ l, x ≤ m) (ha : a ≤ m) : l.foldl max a = m :=
  le_antisymm (foldl_max_le l a m ha hall) (le_foldl_max l a m hmem)

/-- In the ingestion-sorted clause, the length of the unassigned prefix
is the number of unassigned literals of the clause. -/
theorem ingest_sorted_undef_front (s : Solver) (cls : List Lit) :
    ((List.insertionSort (ingestLe s) cls).takeWhile
        (fun l => s.valueL l = .undef)).length =
      cls.countP (fun l => s.valueL l = .undef) := by
  rw [takeWhile_length_eq_countP ?hr (List.sorted_insertionSort (ingestLe s) cls)]
  · exact (List.perm_insertionSort (ingestLe s) cls).countP_eq _
  case hr =>
    intro a b hab hb
    rcases hab with ha | ⟨hb', _⟩
    · simpa using ha
    · exact absurd (by simpa using hb) hb'

/-- With no unassigned literal in the clause, the head of the
ingestion-sorted clause carries the greatest decision level. -/
theorem ingest_sorted_head_level (s : Solver) (cls : List Lit) (hne : cls ≠ [])
    (hall : ∀ l ∈ cls, s.valueL l ≠ .undef) :
    s.levelOf ((List.insertionSort (ingestLe s) cls).getD 0 defaultLit).var =
      s.maxLevelOf cls := by
  have hperm := List.perm_insertionSort (ingestLe s) cls
  have hpair : (List.insertionSort (ingestLe s) cls).Pairwise (ingestLe s) :=
    List.sorted_insertionSort (ingestLe s) cls
  rcases hsrt : List.insertionSort (ingestLe s) cls with _ | ⟨h, t⟩
  · exact absurd (List.length_eq_zero.mp (by rw [← hperm.length_eq, hsrt]; rfl)) hne
  · rw [hsrt] at hperm hpair
    rcases List.pairwise_cons.mp hpair with ⟨hhb, _⟩
    have hmemh : h ∈ cls := hperm.mem_iff.mp (List.mem_cons_self h t)
    have hbound : ∀ l ∈ cls, s.levelOf l.var ≤ s.levelOf h.var := by
      intro l hl
      rcases List.mem_cons.mp (hperm.mem_iff.mpr hl) with rfl | hlt
      · exact le_refl _
      · rcases hhb l hlt with hu | ⟨_, hle⟩
        · exact absurd hu (hall h hmemh)
        · exact hle
    unfold Solver.maxLevelOf
    rw [List.getD_cons_zero]
    refine (foldl_max_eq_of_mem _ 0 (s.levelOf h.var) ?_ ?_ (Nat.zero_le _)).symm
    · exact List.mem_map.mpr ⟨h, hmemh, rfl⟩
    · intro x hx
      rcases List.mem_map.mp hx with ⟨l, hl, rfl⟩
      exact hbound l hl

/-- C2 counterexample: with `v0` true at level 0, ingesting the unit
clause `[v0]` returns false (UNSAT) although no literal of the clause is
assigned false — the claimed "if and only if" fails as stated. -/
theorem C2_counterexample_true_literal :
    (rootTrueSolver.addClauseDuringSearch stdOpts [mkLit 0 false] 10).1 = false ∧
      ¬(([mkLit 0 false] : List Lit) = [] ∨
          ((∀ l ∈ ([mkLit 0 false] : List Lit), rootTrueSolver.valueL l = .f) ∧
            rootTrueSolver.maxLevelOf [mkLit 0 false] = 0)) := by
  decide

/-- C2 (amended): `addClauseDuringSearch(c)` returns false iff `c` is
empty, or no literal of `c` is *unassigned* and the highest decision
level among `c`'s literals is 0; in every other case it returns true.
(The claim's "assigned false" must read "assigned": a literal assigned
true at level 0 also triggers the UNSAT return.) -/
theorem C2_return_false_iff (opts : Opts) (s : Solver) (cls : List Lit) (fuel : Nat) :
    (s.addClauseDuringSearch opts cls fuel).1 = false ↔
      (cls = [] ∨ ((∀ l ∈ cls, s.valueL l ≠ .undef) ∧ s.maxLevelOf cls = 0)) := by
  unfold Solver.addClauseDuringSearch
  by_cases hnil : cls.length = 0
  · rw [if_pos hnil]
    simp [List.length_eq_zero.mp hnil]
  · rw [if_neg hnil]
    have hne : cls ≠ [] := fun h => hnil (by simp [h])
    dsimp only
    by_cases hcall :
        ((List.insertionSort (ingestLe s) cls).takeWhile
            (fun l => s.valueL l = .undef)).length =
          (List.insertionSort (ingestLe s) cls).length
    · rw [if_pos hcall]
      refine iff_of_false (by simp) ?_
      rintro (rfl | ⟨hass, _⟩)
      · exact hne rfl
      · rcases cls with _ | ⟨a, cls'⟩
        · exact hne rfl
        · have hmem : a ∈ List.insertionSort (ingestLe s) (a :: cls') :=
            (List.perm_insertionSort (ingestLe s) (a :: cls')).mem_iff.mpr
              (List.mem_cons_self a cls')
          have := all_of_takeWhile_length hcall a hmem
          exact hass a (List.mem_cons_self a cls') (by simpa using this)
    · rw [if_neg hcall]
      by_cases hzero :
          s.levelOf ((List.insertionSort (ingestLe s) cls).getD
              ((List.insertionSort (ingestLe s) cls).takeWhile
                (fun l => s.valueL l = .undef)).length defaultLit).var = 0 ∧
            ((List.insertionSort (ingestLe s) cls).takeWhile
              (fun l => s.valueL l = .undef)).length = 0
      · rw [if_pos hzero]
        refine iff_of_true rfl (Or.inr ⟨?_, ?_⟩)
        · intro l hl
          have hcount : cls.countP (fun l => s.valueL l = .undef) = 0 := by
            rw [← ingest_sorted_undef_front s cls]
            exact hzero.2
          exact fun hu => by
            have := List.countP_eq_zero.mp hcount l hl
            simp [hu] at this
        · have hass : ∀ l ∈ cls, s.valueL l ≠ .undef := by
            intro l hl
            have hcount : cls.countP (fun l => s.valueL l = .undef) = 0 := by
              rw [← ingest_sorted_undef_front s cls]
              exact hzero.2
            exact fun hu => by
              have := List.countP_eq_zero.mp hcount l hl
              simp [hu] at this
          have hhead := ingest_sorted_head_level s cls hne hass
          rw [← hhead]
          rw [hzero.2] at hzero
          exact hzero.1
      · rw [if_neg hzero]
        have hnR : ¬(cls = [] ∨
            ((∀ l ∈ cls, s.valueL l ≠ .undef) ∧ s.maxLevelOf cls = 0)) := by
          rintro (rfl | ⟨hass, hmax⟩)
          · exact hne rfl
          · apply hzero
            have hcount : cls.countP (fun l => s.valueL l = .undef) = 0 :=
              List.countP_eq_zero.mpr (fun a ha => by simpa using hass a ha)
            have hpre := ingest_sorted_undef_front s cls
            rw [hcount] at hpre
            refine ⟨?_, hpre⟩
            rw [hpre, ingest_sorted_head_level s cls hne hass]
            exact hmax
        refine iff_of_false ?_ hnR
        intro hf
        repeat' split at hf
        all_goals simp at hf

/-! ### C5: the backtrack level computed by `analyze` -/

/-- The argmax fold of `findBtLevel`: the result is the start value or a
scanned index, and its key is the running maximum of the keys. -/
theorem argmax_fold (f : Nat → Nat) (idxs : List Nat) :
    ∀ best,
      ((idxs.foldl (fun b i => if f b < f i then i else b) best) = best ∨
        (idxs.foldl (fun b i => if f b < f i then i else b) best) ∈ idxs) ∧
      f (idxs.foldl (fun b i => if f b < f i then i else b) best) =
        (idxs.map f).foldl max (f best) := by
  induction idxs with
  | nil => intro best; exact ⟨Or.inl rfl, rfl⟩
  | cons i idxs ih =>
      intro best
      rw [List.foldl_cons, List.map_cons, List.foldl_cons]
      have hb' : f (if f best < f i then i else best) = max (f best) (f i) := by
        split
        · exact (max_eq_right (le_of_lt (by assumption))).symm
        · exact (max_eq_left (le_of_not_lt (by assumption))).symm
      obtain ⟨hmem, hval⟩ := ih (if f best < f i then i else best)
      constructor
      · rcases hmem with h | h
        · rw [h]
          split
          · exact Or.inr (List.mem_cons_self _ _)
          · exact Or.inl rfl
        · exact Or.inr (List.mem_cons_of_mem _ h)
      · rw [hval, hb']

/-- Members of a dropped range are bounded below and above. -/
theorem mem_range_drop {j k n : Nat} (h : j ∈ (List.range n).drop k) : k ≤ j ∧ j < n := by
  rw [List.mem_drop_iff_getElem] at h
  obtain ⟨i, hi, rfl⟩ := h
  simp only [List.getElem_range]
  have := hi
  simp only [List.length_range] at this
  omega

/-- Scanning a dropped index range through `getD` is mapping over the
dropped list. -/
theorem map_getD_range_drop {α β : Type} (g : α → β) (d : α) (outl : List α) (k : Nat) :
    ((List.range outl.length).drop k).map (fun j => g (outl.getD j d)) =
      (outl.drop k).map g := by
  apply List.ext_getElem
  · simp
  · intro i h1 h2
    simp only [List.getElem_map, List.getElem_drop, List.getElem_range]
    have hbound : k + i < outl.length := by
      simp only [List.length_map, List.length_drop] at h2
      omega
    rw [List.getD_eq_getElem?_getD, List.getElem?_eq_getElem hbound]
    rfl

/-- `maxLevelOf` of `outl[1..]` as the fold `findBtLevel`'s argmax
computes it. -/
theorem maxLevelOf_drop_one (s : Solver) (outl : List Lit) (h : 1 < outl.length) :
    s.maxLevelOf (outl.drop 1) =
      ((outl.drop 2).map (fun l => s.levelOf l.var)).foldl max
        (s.levelOf ((outl.getD 1 defaultLit).var)) := by
  unfold Solver.maxLevelOf
  have hd : outl.drop 1 = outl[1] :: outl.drop 2 :=
    List.drop_eq_getElem_cons h
  rw [hd, List.map_cons, List.foldl_cons]
  rw [List.getD_eq_getElem?_getD, List.getElem?_eq_getElem h]
  simp [Nat.zero_max]

/-- The value `findBtLevel` returns on a clause of size ≥ 2: it is the
greatest level among the final clause's tail, and the literal at index 1
of the final clause carries it. -/
theorem findBtLevel_btlevel (s : Solver) (outl : List Lit) (h2 : 1 < outl.length) :
    (s.findBtLevel outl).2 = s.maxLevelOf ((s.findBtLevel outl).1.drop 1) ∧
      s.levelOf (((s.findBtLevel outl).1.getD 1 defaultLit).var) = (s.findBtLevel outl).2 := by
  unfold Solver.findBtLevel
  rw [if_neg (by omega)]
  dsimp only
  set f : Nat → Nat := fun j => s.levelOf ((outl.getD j defaultLit).var) with hf
  have hargdef : s.argmaxLevel outl 2 1 =
      ((List.range outl.length).drop 2).foldl (fun b i => if f b < f i then i else b) 1 := by
    unfold Solver.argmaxLevel
    rfl
  obtain ⟨hmem, hval⟩ := argmax_fold f ((List.range outl.length).drop 2) 1
  rw [← hargdef] at hmem hval
  set maxI := s.argmaxLevel outl 2 1 with hmaxI
  have hmaxI1 : 1 ≤ maxI := by
    rcases hmem with h | h
    · omega
    · exact le_trans (by omega) (mem_range_drop h).1
  have hmaxIlt : maxI < outl.length := by
    rcases hmem with h | h
    · omega
    · exact (mem_range_drop h).2
  -- the level the argmax finds is the max of the tail levels
  have hmax : f maxI = s.maxLevelOf (outl.drop 1) := by
    rw [hval, maxLevelOf_drop_one s outl h2]
    rw [map_getD_range_drop (fun l => s.levelOf l.var) defaultLit outl 2]
  -- the swapped list
  set swapped := (outl.set maxI (outl.getD 1 defaultLit)).set 1 (outl.getD maxI defaultLit)
    with hsw
  have hswlen : swapped.length = outl.length := by
    rw [hsw]
    simp
  have hsw1lt : 1 < swapped.length := by omega
  -- index 1 of the swapped list holds the argmax literal
  have hat1 : swapped.getD 1 defaultLit = outl.getD maxI defaultLit := by
    simp only [hsw]
    rw [List.getD_eq_getElem?_getD,
      List.getElem?_eq_getElem (by simp; omega : 1 < ((outl.set maxI
        (outl.getD 1 defaultLit)).set 1 (outl.getD maxI defaultLit)).length)]
    simp
  -- each tail element of the swapped list is some outl[j] with j ≥ 1
  have htailmem : ∀ x ∈ swapped.drop 1, s.levelOf x.var ≤ f maxI := by
    intro x hx
    rw [List.mem_drop_iff_getElem] at hx
    obtain ⟨i, hi, hxeq⟩ := hx
    have hi' : 1 + i < outl.length := by omega
    have hx' : x = swapped[1 + i] := hxeq.symm
    have hxval : x = outl.getD maxI defaultLit ∨ x = outl.getD 1 defaultLit ∨
        (∃ j, ∃ hj : j < outl.length, 1 ≤ j ∧ x = outl.get ⟨j, hj⟩) := by
      by_cases he1 : 1 + i = 1
      · left
        rw [hx']
        simp only [hsw, he1]
        rw [List.getElem_set_self]
      · by_cases hem : 1 + i = maxI
        · right; left
          rw [hx']
          simp only [hsw, hem]
          rw [List.getElem_set_ne (by omega), List.getElem_set_self]
        · right; right
          refine ⟨1 + i, by omega, by omega, ?_⟩
          rw [hx']
          simp only [hsw]
          rw [List.getElem_set_ne (by omega), List.getElem_set_ne (by omega)]
          rw [List.get_eq_getElem]
    rcases hxval with rfl | rfl | ⟨j, hj, hj1, rfl⟩
    · exact le_refl _
    · -- level of outl[1] is bounded by the tail maximum
      rw [hmax]
      have hmem1 : outl.getD 1 defaultLit ∈ outl.drop 1 := by
        rw [List.mem_drop_iff_getElem]
        refine ⟨0, by omega, ?_⟩
        rw [List.getD_eq_getElem?_getD, List.getElem?_eq_getElem h2]
        simp
      exact le_foldl_max _ 0 _ (List.mem_map.mpr ⟨_, hmem1, rfl⟩)
    · rw [hmax]
      have hmemj : outl.get ⟨j, hj⟩ ∈ outl.drop 1 := by
        rw [List.mem_drop_iff_getElem]
        refine ⟨j - 1, by omega, ?_⟩
        have hji : 1 + (j - 1) = j := by omega
        simp only [hji, List.get_eq_getElem]
      exact le_foldl_max _ 0 _ (List.mem_map.mpr ⟨_, hmemj, rfl⟩)
  -- the head of the tail of the swapped list is the argmax literal
  have hin : outl.getD maxI defaultLit ∈ swapped.drop 1 := by
    rw [List.mem_drop_iff_getElem]
    refine ⟨0, by omega, ?_⟩
    have h1lt : 1 < swapped.length := by omega
    have := hat1
    rw [List.getD_eq_getElem?_getD, List.getElem?_eq_getElem h1lt] at this
    simpa using this
  have hswmax : s.maxLevelOf (swapped.drop 1) = f maxI := by
    unfold Solver.maxLevelOf
    refine foldl_max_eq_of_mem _ 0 (f maxI) ?_ ?_ (Nat.zero_le _)
    · exact List.mem_map.mpr ⟨_, hin, rfl⟩
    · intro x hx
      rcases List.mem_map.mp hx with ⟨l, hl, rfl⟩
      exact htailmem l hl
  exact ⟨hswmax.symm, by rw [hat1]⟩

/-- `findBtLevel` on a unit clause reports backtrack level 0. -/
theorem findBtLevel_unit (s : Solver) (outl : List Lit) (h1 : outl.length = 1) :
    (s.findBtLevel outl).2 = 0 := by
  unfold Solver.findBtLevel
  rw [if_pos h1]

/-- `findBtLevel` permutes the clause in place: the length is kept. -/
theorem findBtLevel_length (s : Solver) (outl : List Lit) :
    (s.findBtLevel outl).1.length = outl.length := by
  unfold Solver.findBtLevel
  split
  · rfl
  · simp

/-- Equal `vardata` gives equal `level`. -/
theorem levelOf_congr {s1 s2 : Solver} (h : s1.vardata = s2.vardata) :
    Solver.levelOf s1 = Solver.levelOf s2 :=
  funext fun v => by unfold Solver.levelOf; rw [h]

/-- Equal `vardata` gives equal clause level maxima. -/
theorem maxLevelOf_congr {s1 s2 : Solver} (h : s1.vardata = s2.vardata) (cls : List Lit) :
    s1.maxLevelOf cls = s2.maxLevelOf cls := by
  unfold Solver.maxLevelOf
  rw [levelOf_congr h]

/-- Equal `vardata` gives equal `findBtLevel`. -/
theorem findBtLevel_congr {s1 s2 : Solver} (h : s1.vardata = s2.vardata) (outl : List Lit) :
    s1.findBtLevel outl = s2.findBtLevel outl := by
  unfold Solver.findBtLevel Solver.argmaxLevel
  rw [levelOf_congr h]

/-- `varBumpActivity` does not touch `vardata`. -/
theorem varBumpActivity_vardata (s : Solver) (v : Nat) :
    (s.varBumpActivity v).vardata = s.vardata := by
  unfold Solver.varBumpActivity
  dsimp only
  split <;> rfl

/-- `claBumpActivity` does not touch `vardata`. -/
theorem claBumpActivity_vardata (s : Solver) (cr : Nat) :
    (s.claBumpActivity cr).vardata = s.vardata := by
  unfold Solver.claBumpActivity
  dsimp only
  split <;> rfl

/-- One step of the analyze marking loop does not touch `vardata`. -/
theorem analyzeSeenStep_vardata (acc : Solver × Nat × List Lit) (q : Lit) :
    (Solver.analyzeSeenStep acc q).1.vardata = acc.1.vardata := by
  rcases acc with ⟨sv, pc, ol⟩
  unfold Solver.analyzeSeenStep
  dsimp only
  split
  · split <;> simp [varBumpActivity_vardata]
  · rfl

/-- The analyze marking fold does not touch `vardata`. -/
theorem foldl_analyzeSeenStep_vardata (ls : List Lit) :
    ∀ (acc : Solver × Nat × List Lit),
      (ls.foldl Solver.analyzeSeenStep acc).1.vardata = acc.1.vardata := by
  induction ls with
  | nil => intro acc; rfl
  | cons a t ih =>
      intro acc
      rw [List.foldl_cons, ih _, analyzeSeenStep_vardata]

/-- The first phase of `analyze` does not touch `vardata`. -/
theorem analyzeGo_vardata :
    ∀ (fuel : Nat) (s : Solver) (confl : Option Nat) (p : Option Lit) (idx pc : Nat)
      (outl : List Lit),
      (Solver.analyzeGo fuel s confl p idx pc outl).1.vardata = s.vardata := by
  intro fuel
  induction fuel with
  | zero => intros; rfl
  | succ fuel ih =>
      intro s confl p idx pc outl
      rw [Solver.analyzeGo]
      dsimp only
      rcases hfold : ((s.clauseAt (confl.getD 0)).lits.drop (if p = none then 0 else 1)).foldl
          Solver.analyzeSeenStep
          (if (s.clauseAt (confl.getD 0)).learnt then s.claBumpActivity (confl.getD 0) else s,
            pc, outl) with ⟨s2, pc2, ol2⟩
      dsimp only
      have h2 : s2.vardata = s.vardata := by
        have hx := foldl_analyzeSeenStep_vardata
          ((s.clauseAt (confl.getD 0)).lits.drop (if p = none then 0 else 1))
          (if (s.clauseAt (confl.getD 0)).learnt then s.claBumpActivity (confl.getD 0) else s,
            pc, outl)
        rw [hfold] at hx
        dsimp only at hx
        rw [hx]
        split
        · exact claBumpActivity_vardata s _
        · rfl
      split
      · rw [ih]
        exact h2
      · exact h2

/-- The marking fold of the failure path of `litRedundant` does not
touch `vardata`. -/
theorem foldl_seenMark_vardata (stack : List (Nat × Lit)) :
    ∀ (acc : Solver × List Lit),
      ((stack.foldl (fun (acc : Solver × List Lit) e =>
          if acc.1.seen.getD e.2.var 0 = 0 then
            ({ acc.1 with seen := acc.1.seen.set e.2.var 3 }, acc.2 ++ [e.2])
          else acc) acc).1).vardata = acc.1.vardata := by
  induction stack with
  | nil => intro acc; rfl
  | cons a t ih =>
      intro acc
      rw [List.foldl_cons, ih]
      split <;> rfl

/-- `litRedundant`'s stack loop does not touch `vardata`. -/
theorem litRedGo_vardata :
    ∀ (fuel : Nat) (s : Solver) (tc : List Lit) (p : Lit) (i : Nat)
      (stack : List (Nat × Lit)),
      (Solver.litRedGo fuel s tc p i stack).1.vardata = s.vardata := by
  intro fuel
  induction fuel with
  | zero => intros; rfl
  | succ fuel ih =>
      intro s tc p i stack
      rw [Solver.litRedGo]
      dsimp only
      split
      · split
        · apply ih
        · split
          · exact foldl_seenMark_vardata (stack ++ [(0, p)]) (s, tc)
          · apply ih
      · split
        · split <;> rfl
        · rw [ih]
          split <;> rfl

/-- The deep minimization pass does not touch `vardata`. -/
theorem minimizeDeep_vardata (fuel : Nat) :
    ∀ (rest : List Lit) (s : Solver) (tc acc : List Lit),
      (s.minimizeDeep tc fuel rest acc).1.vardata = s.vardata := by
  intro rest
  induction rest with
  | nil => intros; rfl
  | cons a t ih =>
      intro s tc acc
      rw [Solver.minimizeDeep]
      dsimp only
      split
      · exact ih s tc (a :: acc)
      · rcases hred : s.litRedundant tc a fuel with ⟨s2, tc2, red⟩
        have h2 : s2.vardata = s.vardata := by
          have hx := litRedGo_vardata fuel s tc a 1 []
          unfold Solver.litRedundant at hred
          rw [hred] at hx
          exact hx
        dsimp only
        split
        · rw [ih]
          exact h2
        · rw [ih]
          exact h2

/-- The backtrack-level facts hold of `findBtLevel` run in any state
whose `vardata` agrees with `s`. -/
theorem analyze_btlevel_core {s s2 : Solver} (h : s2.vardata = s.vardata) (outl : List Lit) :
    ((s2.findBtLevel outl).1.length = 1 → (s2.findBtLevel outl).2 = 0) ∧
      (1 < (s2.findBtLevel outl).1.length →
        (s2.findBtLevel outl).2 = s.maxLevelOf ((s2.findBtLevel outl).1.drop 1) ∧
          s.levelOf (((s2.findBtLevel outl).1.getD 1 defaultLit).var) =
            (s2.findBtLevel outl).2) ∧
      0 ≤ (s2.findBtLevel outl).2 := by
  rw [findBtLevel_congr h]
  refine ⟨?_, ?_, Nat.zero_le _⟩
  · intro h1
    rw [findBtLevel_length] at h1
    exact findBtLevel_unit s outl h1
  · intro h1
    rw [findBtLevel_length] at h1
    exact findBtLevel_btlevel s outl h1

/-- C5: after `analyze` returns, a unit learnt clause gives backtrack
level 0; otherwise the backtrack level is the greatest decision level
among `out_learnt[1..]`, the literal carrying it sits at index 1, and
the level is non-negative. -/
theorem C5_analyze_btlevel (opts : Opts) (s : Solver) (confl fuel : Nat) :
    ((s.analyze opts confl fuel).2.1.length = 1 → (s.analyze opts confl fuel).2.2 = 0) ∧
      (1 < (s.analyze opts confl fuel).2.1.length →
        (s.analyze opts confl fuel).2.2 =
            s.maxLevelOf ((s.analyze opts confl fuel).2.1.drop 1) ∧
          s.levelOf (((s.analyze opts confl fuel).2.1.getD 1 defaultLit).var) =
            (s.analyze opts confl fuel).2.2) ∧
      0 ≤ (s.analyze opts confl fuel).2.2 := by
  unfold Solver.analyze
  rcases hgo : Solver.analyzeGo fuel s (some confl) none (s.trail.length - 1) 0 []
    with ⟨s1, p, rest⟩
  have hv1 : s1.vardata = s.vardata := by
    have hx := analyzeGo_vardata fuel s (some confl) none (s.trail.length - 1) 0 []
    rw [hgo] at hx
    exact hx
  dsimp only
  by_cases hcc2 : opts.ccminMode = 2
  · rw [if_pos hcc2]
    rcases hmin : s1.minimizeDeep (negLit p :: rest) fuel rest [] with ⟨s2, tc2, kept⟩
    dsimp only
    have hv2 : s2.vardata = s.vardata := by
      have hx := minimizeDeep_vardata fuel rest s1 (negLit p :: rest) []
      rw [hmin] at hx
      exact hx.trans hv1
    exact analyze_btlevel_core hv2 (negLit p :: kept)
  · rw [if_neg hcc2]
    by_cases hcc1 : opts.ccminMode = 1
    · rw [if_pos hcc1]
      dsimp only
      exact analyze_btlevel_core hv1 (negLit p :: s1.minimizeBasic rest [])
    · rw [if_neg hcc1]
      dsimp only
      exact analyze_btlevel_core hv1 (negLit p :: rest)

/-- With all literals assigned and two of them at the top level, the
second element of the ingestion-sorted clause carries the top level. -/
theorem ingest_sorted_second_level (s : Solver) (cls : List Lit) (a b : Lit) (t : List Lit)
    (hsort : List.insertionSort (ingestLe s) cls = a :: b :: t)
    (hall : ∀ l ∈ cls, s.valueL l ≠ .undef)
    (htwo : 2 ≤ cls.countP (fun l => s.levelOf l.var = s.maxLevelOf cls)) :
    s.levelOf b.var = s.maxLevelOf cls := by
  have hperm := List.perm_insertionSort (ingestLe s) cls
  have hpair := List.sorted_insertionSort (ingestLe s) cls
  rw [hsort] at hperm hpair
  have hcnt : 2 ≤ (a :: b :: t).countP (fun l => s.levelOf l.var = s.maxLevelOf cls) := by
    rw [hperm.countP_eq]
    exact htwo
  have hex : ∃ x ∈ b :: t, s.levelOf x.var = s.maxLevelOf cls := by
    by_contra hno
    push_neg at hno
    have hz : (b :: t).countP (fun l => s.levelOf l.var = s.maxLevelOf cls) = 0 :=
      List.countP_eq_zero.mpr fun x hx => by simpa using hno x hx
    rw [List.countP_cons, hz] at hcnt
    split at hcnt <;> omega
  rcases hex with ⟨x, hx, hpx⟩
  have hbmem : b ∈ cls := hperm.mem_iff.mp (by simp)
  have hble : s.levelOf b.var ≤ s.maxLevelOf cls := by
    unfold Solver.maxLevelOf
    exact le_foldl_max _ 0 _ (List.mem_map.mpr ⟨b, hbmem, rfl⟩)
  rcases List.mem_cons.mp hx with rfl | hxt
  · exact hpx
  · have hpairbt : (b :: t).Pairwise (ingestLe s) := (List.pairwise_cons.mp hpair).2
    have hrbx : ingestLe s b x := (List.pairwise_cons.mp hpairbt).1 x hxt
    rcases hrbx with hu | ⟨_, hle⟩
    · exact absurd hu (hall b hbmem)
    · omega

/-- C3: ingesting a clause whose literals are all assigned false, whose
top decision level is positive and which has at least two literals at
that top level, coincides with the spec's conflicting-clause step —
backjump to the top level, attach the sorted clause as an original
clause, run conflict analysis on it, backjump to the derived level,
learn the analysis output (enqueueing it directly when unit) with its
asserting literal enqueued — and the call returns true. -/
theorem C3_conflicting_ingestion (opts : Opts) (s : Solver) (cls : List Lit) (fuel : Nat)
    (hfalse : ∀ l ∈ cls, s.valueL l = .f)
    (hpos : 0 < s.maxLevelOf cls)
    (htwo : 2 ≤ cls.countP (fun l => s.levelOf l.var = s.maxLevelOf cls)) :
    s.addClauseDuringSearch opts cls fuel =
        s.ingestConflictingSpec opts (List.insertionSort (ingestLe s) cls)
          (s.maxLevelOf cls) fuel ∧
      (s.addClauseDuringSearch opts cls fuel).1 = true := by
  have hall : ∀ l ∈ cls, s.valueL l ≠ .undef := fun l hl => by
    rw [hfalse l hl]
    intro hx
    cases hx
  have hlen2 : 2 ≤ cls.length := le_trans htwo (List.countP_le_length _)
  have hlenS : (List.insertionSort (ingestLe s) cls).length = cls.length :=
    (List.perm_insertionSort (ingestLe s) cls).length_eq
  have hcnt0 : cls.countP (fun l => s.valueL l = .undef) = 0 :=
    List.countP_eq_zero.mpr fun l hl => by simp [hfalse l hl]
  have hnum : ((List.insertionSort (ingestLe s) cls).takeWhile
      (fun l => s.valueL l = .undef)).length = 0 :=
    (ingest_sorted_undef_front s cls).trans hcnt0
  have hne : cls ≠ [] := by
    intro h
    rw [h] at hlen2
    simp at hlen2
  have hhead := ingest_sorted_head_level s cls hne hall
  rcases hsort : List.insertionSort (ingestLe s) cls with _ | ⟨a, _ | ⟨b, t⟩⟩
  · rw [hsort] at hlenS
    simp at hlenS
    omega
  · rw [hsort] at hlenS
    simp at hlenS
    omega
  · have hblev := ingest_sorted_second_level s cls a b t hsort hall htwo
    rw [hsort] at hnum hhead
    have heq : s.addClauseDuringSearch opts cls fuel =
        s.ingestConflictingSpec opts (a :: b :: t) (s.maxLevelOf cls) fuel := by
      unfold Solver.addClauseDuringSearch
      rw [hsort]
      dsimp only
      rw [if_neg (by omega : ¬cls.length = 0)]
      rw [hnum]
      rw [if_neg (by simp : ¬((0 : Nat) = (a :: b :: t).length))]
      rw [hhead]
      rw [if_neg (fun hcon => absurd hcon.1 (by omega))]
      rw [if_neg (by decide : ¬((0 : Nat) = 1))]
      have htk : ((a :: b :: t).drop (0 + 1)).takeWhile
            (fun l => s.levelOf l.var = s.maxLevelOf cls) =
          b :: t.takeWhile (fun l => s.levelOf l.var = s.maxLevelOf cls) := by
        rw [List.drop_succ_cons, List.drop_zero, List.takeWhile_cons, if_pos (by simp [hblev])]
      rw [htk, List.length_cons]
      rw [if_pos (by omega)]
      rfl
    refine ⟨heq, ?_⟩
    rw [heq]
    unfold Solver.ingestConflictingSpec
    dsimp only
    repeat' split
    all_goals rfl

/-- C3 witness: in the two-level scenario the clause `¬v1 ∨ ¬v2` has
both literals false at level 2; ingesting it runs the conflicting-
clause composition and returns true. -/
theorem C3_conflicting_ingestion_witness :
    ((∀ l ∈ ([mkLit 1 true, mkLit 2 true] : List Lit), twoLevelSolver.valueL l = .f) ∧
        0 < twoLevelSolver.maxLevelOf [mkLit 1 true, mkLit 2 true] ∧
        2 ≤ ([mkLit 1 true, mkLit 2 true] : List Lit).countP
          (fun l => twoLevelSolver.levelOf l.var =
            twoLevelSolver.maxLevelOf [mkLit 1 true, mkLit 2 true])) ∧
      (twoLevelSolver.addClauseDuringSearch stdOpts [mkLit 1 true, mkLit 2 true] 10 =
          twoLevelSolver.ingestConflictingSpec stdOpts
            (List.insertionSort (ingestLe twoLevelSolver) [mkLit 1 true, mkLit 2 true])
            (twoLevelSolver.maxLevelOf [mkLit 1 true, mkLit 2 true]) 10 ∧
        (twoLevelSolver.addClauseDuringSearch stdOpts [mkLit 1 true, mkLit 2 true] 10).1 =
          true) :=
  ⟨⟨by decide, by decide, by decide⟩,
    C3_conflicting_ingestion stdOpts twoLevelSolver [mkLit 1 true, mkLit 2 true] 10
      (by decide) (by decide) (by decide)⟩

/-- `getD` after `set` at a different index. -/
theorem getD_set_ne {α : Type} (l : List α) (i j : Nat) (a d : α) (h : j ≠ i) :
    (l.set i a).getD j d = l.getD j d := by
  have hij : ¬i = j := fun hh => h hh.symm
  simp [List.getD, List.getElem?_set, hij]

/-- Congruence for `clauseAt` under equal arenas. -/
theorem clauseAt_congr {s1 s2 : Solver} (h : s1.arena = s2.arena) (cr : Nat) :
    s1.clauseAt cr = s2.clauseAt cr := by
  unfold Solver.clauseAt
  rw [h]

/-- Congruence for `lockedAt` under equal arena, assignment and
variable data. -/
theorem lockedAt_congr {s1 s2 : Solver} (ha : s1.arena = s2.arena)
    (hb : s1.assigns = s2.assigns) (hc : s1.vardata = s2.vardata) (cr : Nat) :
    s1.lockedAt cr = s2.lockedAt cr := by
  unfold Solver.lockedAt Solver.clauseAt Solver.valueL Solver.valueVar Solver.reasonOf
  rw [ha, hb, hc]

/-- Lazy detach touches neither the arena nor the assignment nor the
variable data. -/
theorem detachClauseLazy_core (s : Solver) (cr : Nat) :
    (s.detachClauseLazy cr).arena = s.arena ∧
      (s.detachClauseLazy cr).assigns = s.assigns ∧
      (s.detachClauseLazy cr).vardata = s.vardata := by
  unfold Solver.detachClauseLazy Solver.smudgeWatch
  dsimp only
  split <;> exact ⟨rfl, rfl, rfl⟩

/-- Removing a non-locked clause only marks its arena slot; assignment
and variable data stay. -/
theorem removeClause_core (s : Solver) (cr : Nat) (hnl : ¬s.lockedAt cr = true) :
    (∀ cr', cr' ≠ cr → (s.removeClause cr).clauseAt cr' = s.clauseAt cr') ∧
      (s.removeClause cr).assigns = s.assigns ∧
      (s.removeClause cr).vardata = s.vardata := by
  rcases detachClauseLazy_core s cr with ⟨ha, hb, hc⟩
  unfold Solver.removeClause
  dsimp only
  rw [if_neg (by rw [lockedAt_congr ha hb hc]; exact hnl)]
  refine ⟨?_, hb, hc⟩
  intro cr' hne
  unfold Solver.clauseAt
  dsimp only
  rw [ha, getD_set_ne _ _ _ _ _ hne]

/-- Removing a non-locked clause keeps the locked status of every other
clause. -/
theorem removeClause_lockedAt_ne (s : Solver) (cr cr' : Nat) (hne : cr' ≠ cr)
    (hnl : ¬s.lockedAt cr = true) :
    (s.removeClause cr).lockedAt cr' = s.lockedAt cr' := by
  rcases removeClause_core s cr hnl with ⟨hcl, hb, hc⟩
  unfold Solver.lockedAt Solver.valueL Solver.valueVar Solver.reasonOf
  rw [hb, hc, show (s.removeClause cr).clauseAt cr' = s.clauseAt cr' from hcl cr' hne]

/-- The `reduceDB` filter loop keeps, in order, exactly the clauses
failing the deletion test (evaluated in the entry state). -/
theorem reduceDBfold_keep (s : Solver) (n : Nat) (extraLim : Frac) :
    ∀ (l : List (Nat × Nat)) (sk : Solver) (keep : List Nat),
      (∀ icr ∈ l, sk.clauseAt icr.2 = s.clauseAt icr.2 ∧
        sk.lockedAt icr.2 = s.lockedAt icr.2) →
      (l.map Prod.snd).Nodup →
      (l.foldl (Solver.reduceDBStep n extraLim) (sk, keep)).2 =
        keep ++ (l.filter (fun icr => ¬(2 < (s.clauseAt icr.2).lits.length ∧
            ¬s.lockedAt icr.2 = true ∧
            (icr.1 < n / 2 ∨ (s.clauseAt icr.2).act < extraLim)))).map Prod.snd := by
  intro l
  induction l with
  | nil =>
      intro sk keep _ _
      simp
  | cons hd tl ih =>
      intro sk keep hinv hnd
      rw [List.foldl_cons]
      rcases hinv hd (List.mem_cons_self hd tl) with ⟨hc, hl⟩
      have hinv' : ∀ icr ∈ tl, sk.clauseAt icr.2 = s.clauseAt icr.2 ∧
          sk.lockedAt icr.2 = s.lockedAt icr.2 :=
        fun icr h => hinv icr (List.mem_cons_of_mem hd h)
      rw [List.map_cons] at hnd
      have hnd' : (tl.map Prod.snd).Nodup := (List.nodup_cons.mp hnd).2
      have hhd : hd.2 ∉ tl.map Prod.snd := (List.nodup_cons.mp hnd).1
      by_cases hp : 2 < (s.clauseAt hd.2).lits.length ∧ ¬s.lockedAt hd.2 = true ∧
          (hd.1 < n / 2 ∨ (s.clauseAt hd.2).act < extraLim)
      · have hcond : 2 < (sk.clauseAt hd.2).lits.length ∧ ¬sk.lockedAt hd.2 = true ∧
            (hd.1 < n / 2 ∨ (sk.clauseAt hd.2).act < extraLim) := by
          rw [hc, hl]
          exact hp
        have hstep : Solver.reduceDBStep n extraLim (sk, keep) hd =
            (sk.removeClause hd.2, keep) := by
          unfold Solver.reduceDBStep
          dsimp only
          rw [if_pos hcond]
        rw [hstep]
        have hnl : ¬sk.lockedAt hd.2 = true := by
          rw [hl]
          exact hp.2.1
        have hinv2 : ∀ icr ∈ tl, (sk.removeClause hd.2).clauseAt icr.2 = s.clauseAt icr.2 ∧
            (sk.removeClause hd.2).lockedAt icr.2 = s.lockedAt icr.2 := by
          intro icr hmem
          have hne : icr.2 ≠ hd.2 := by
            intro he
            exact hhd (he ▸ List.mem_map.mpr ⟨icr, hmem, rfl⟩)
          rcases hinv' icr hmem with ⟨h1, h2⟩
          refine ⟨?_, ?_⟩
          · rw [(removeClause_core sk hd.2 hnl).1 icr.2 hne, h1]
          · rw [removeClause_lockedAt_ne sk hd.2 icr.2 hne hnl, h2]
        rw [ih (sk.removeClause hd.2) keep hinv2 hnd']
        have hfil : (hd :: tl).filter (fun icr => ¬(2 < (s.clauseAt icr.2).lits.length ∧
              ¬s.lockedAt icr.2 = true ∧
              (icr.1 < n / 2 ∨ (s.clauseAt icr.2).act < extraLim))) =
            tl.filter (fun icr => ¬(2 < (s.clauseAt icr.2).lits.length ∧
              ¬s.lockedAt icr.2 = true ∧
              (icr.1 < n / 2 ∨ (s.clauseAt icr.2).act < extraLim))) := by
          rw [List.filter_cons, if_neg (by simpa using not_not_intro hp)]
        rw [hfil]
      · have hcond : ¬(2 < (sk.clauseAt hd.2).lits.length ∧ ¬sk.lockedAt hd.2 = true ∧
            (hd.1 < n / 2 ∨ (sk.clauseAt hd.2).act < extraLim)) := by
          rw [hc, hl]
          exact hp
        have hstep : Solver.reduceDBStep n extraLim (sk, keep) hd =
            (sk, keep ++ [hd.2]) := by
          unfold Solver.reduceDBStep
          dsimp only
          rw [if_neg hcond]
        rw [hstep, ih sk (keep ++ [hd.2]) hinv' hnd']
        have hfil : (hd :: tl).filter (fun icr => ¬(2 < (s.clauseAt icr.2).lits.length ∧
              ¬s.lockedAt icr.2 = true ∧
              (icr.1 < n / 2 ∨ (s.clauseAt icr.2).act < extraLim))) =
            hd :: tl.filter (fun icr => ¬(2 < (s.clauseAt icr.2).lits.length ∧
              ¬s.lockedAt icr.2 = true ∧
              (icr.1 < n / 2 ∨ (s.clauseAt icr.2).act < extraLim))) := by
          rw [List.filter_cons, if_pos (decide_eq_true hp)]
        rw [hfil, List.map_cons, List.append_assoc, List.singleton_append]

/-- The learnt list after `reduceDB`: exactly the sorted positions that
fail the deletion test survive, in sorted order. -/
theorem reduceDB_learnts (s : Solver) (hnd : s.learnts.Nodup) :
    (s.reduceDB).learnts =
      (((List.range s.sortedLearnts.length).zip s.sortedLearnts).filter
          (fun icr => ¬(2 < (s.clauseAt icr.2).lits.length ∧ ¬s.lockedAt icr.2 = true ∧
            (icr.1 < s.sortedLearnts.length / 2 ∨
              (s.clauseAt icr.2).act < s.claInc / (s.learnts.length : Frac))))).map
        Prod.snd := by
  have hndS : s.sortedLearnts.Nodup := by
    unfold Solver.sortedLearnts
    exact (List.perm_insertionSort (reduceDBle s) s.learnts).nodup_iff.mpr hnd
  have hsnd : (((List.range s.sortedLearnts.length).zip s.sortedLearnts).map
      Prod.snd).Nodup := by
    rw [List.map_snd_zip _ _ (by rw [List.length_range])]
    exact hndS
  have hk := reduceDBfold_keep s s.sortedLearnts.length
    (s.claInc / (s.learnts.length : Frac))
    ((List.range s.sortedLearnts.length).zip s.sortedLearnts) s []
    (fun icr _ => ⟨rfl, rfl⟩) hsnd
  rw [List.nil_append] at hk
  exact hk

/-- C6: `reduceDB` deletes the learnt clause at position `i` of the
sorted learnt list iff it is longer than binary, not locked, and either
sits in the first half or has activity below `cla_inc / learnts.size()`;
binary and locked clauses are never deleted. -/
theorem C6_reduceDB_deletion (s : Solver) (hnd : s.learnts.Nodup)
    (i : Nat) (hi : i < s.sortedLearnts.length) :
    (s.sortedLearnts.get ⟨i, hi⟩ ∉ (s.reduceDB).learnts ↔
        (2 < (s.clauseAt (s.sortedLearnts.get ⟨i, hi⟩)).lits.length ∧
          ¬s.lockedAt (s.sortedLearnts.get ⟨i, hi⟩) = true ∧
          (i < s.sortedLearnts.length / 2 ∨
            (s.clauseAt (s.sortedLearnts.get ⟨i, hi⟩)).act <
              s.claInc / (s.learnts.length : Frac)))) ∧
      (((s.clauseAt (s.sortedLearnts.get ⟨i, hi⟩)).lits.length = 2 ∨
          s.lockedAt (s.sortedLearnts.get ⟨i, hi⟩) = true) →
        s.sortedLearnts.get ⟨i, hi⟩ ∈ (s.reduceDB).learnts) := by
  have hndS : s.sortedLearnts.Nodup := by
    unfold Solver.sortedLearnts
    exact (List.perm_insertionSort (reduceDBle s) s.learnts).nodup_iff.mpr hnd
  have hmem : s.sortedLearnts.get ⟨i, hi⟩ ∈ (s.reduceDB).learnts ↔
      ¬(2 < (s.clauseAt (s.sortedLearnts.get ⟨i, hi⟩)).lits.length ∧
        ¬s.lockedAt (s.sortedLearnts.get ⟨i, hi⟩) = true ∧
        (i < s.sortedLearnts.length / 2 ∨
          (s.clauseAt (s.sortedLearnts.get ⟨i, hi⟩)).act <
            s.claInc / (s.learnts.length : Frac))) := by
    rw [reduceDB_learnts s hnd]
    constructor
    · intro hin
      rcases List.mem_map.mp hin with ⟨icr, hicr, hsnd⟩
      rcases List.mem_filter.mp hicr with ⟨hzip, hq⟩
      rcases List.mem_iff_get.mp hzip with ⟨k, hk⟩
      have hkz := k.isLt
      have hlenz : ((List.range s.sortedLearnts.length).zip s.sortedLearnts).length =
          s.sortedLearnts.length := by
        rw [List.length_zip, List.length_range, Nat.min_self]
      have hks : (k : Nat) < s.sortedLearnts.length := by omega
      have hkval : icr = ((k : Nat), s.sortedLearnts.get ⟨k, hks⟩) := by
        rw [← hk]
        simp only [List.get_eq_getElem, List.getElem_zip, List.getElem_range]
      have hsame : s.sortedLearnts.get ⟨k, hks⟩ = s.sortedLearnts.get ⟨i, hi⟩ := by
        rw [hkval] at hsnd
        exact hsnd
      have hki : (⟨k, hks⟩ : Fin s.sortedLearnts.length) = ⟨i, hi⟩ :=
        (List.Nodup.get_inj_iff hndS).mp hsame
      have hkieq : (k : Nat) = i := congrArg Fin.val hki
      rw [hkval] at hq
      intro hPi
      refine absurd ?_ (of_decide_eq_true hq)
      dsimp only
      rw [hsame, hkieq]
      exact hPi
    · intro hnp
      refine List.mem_map.mpr ⟨(i, s.sortedLearnts.get ⟨i, hi⟩),
        List.mem_filter.mpr ⟨?_, decide_eq_true hnp⟩, rfl⟩
      have hlenz : ((List.range s.sortedLearnts.length).zip s.sortedLearnts).length =
          s.sortedLearnts.length := by
        rw [List.length_zip, List.length_range, Nat.min_self]
      refine List.mem_iff_get.mpr ⟨⟨i, by rw [hlenz]; exact hi⟩, ?_⟩
      simp only [List.get_eq_getElem, List.getElem_zip, List.getElem_range]
  constructor
  · exact (not_congr hmem).trans not_not
  · intro hbl
    apply hmem.mpr
    intro hP
    rcases hbl with h2 | hlk
    · omega
    · exact hP.2.1 hlk

/-- C6 witness: in the four-learnt scenario the first sorted clause
(long, unlocked, first half) is deleted, and the deletion test holds
of it. -/
theorem C6_reduceDB_deletion_witness :
    reduceDBSolver.learnts.Nodup ∧
      ((reduceDBSolver.sortedLearnts.get ⟨0, by decide⟩ ∉
            (reduceDBSolver.reduceDB).learnts ↔
          (2 < (reduceDBSolver.clauseAt
              (reduceDBSolver.sortedLearnts.get ⟨0, by decide⟩)).lits.length ∧
            ¬reduceDBSolver.lockedAt
              (reduceDBSolver.sortedLearnts.get ⟨0, by decide⟩) = true ∧
            (0 < reduceDBSolver.sortedLearnts.length / 2 ∨
              (reduceDBSolver.clauseAt
                  (reduceDBSolver.sortedLearnts.get ⟨0, by decide⟩)).act <
                reduceDBSolver.claInc / (reduceDBSolver.learnts.length : Frac)))) ∧
        (((reduceDBSolver.clauseAt
              (reduceDBSolver.sortedLearnts.get ⟨0, by decide⟩)).lits.length = 2 ∨
            reduceDBSolver.lockedAt
              (reduceDBSolver.sortedLearnts.get ⟨0, by decide⟩) = true) →
          reduceDBSolver.sortedLearnts.get ⟨0, by decide⟩ ∈
            (reduceDBSolver.reduceDB).learnts)) :=
  ⟨by decide, C6_reduceDB_deletion reduceDBSolver (by decide) 0 (by decide)⟩

/-! ### C7: trail bookkeeping preservation -/

theorem trailEq_refl (s : Solver) : Solver.trailEq s s := ⟨rfl, rfl, rfl⟩

theorem trailEq_trans {a b c : Solver} (h1 : Solver.trailEq a b) (h2 : Solver.trailEq b c) :
    Solver.trailEq a c :=
  ⟨h1.1.trans h2.1, h1.2.1.trans h2.2.1, h1.2.2.trans h2.2.2⟩

theorem trailGrow_of_trailEq {a b : Solver} (h : Solver.trailEq a b) : Solver.trailGrow a b :=
  ⟨h.1, h.2.2, le_of_eq (congrArg List.length h.2.1.symm)⟩

theorem trailGrow_trans {a b c : Solver} (h1 : Solver.trailGrow a b)
    (h2 : Solver.trailGrow b c) : Solver.trailGrow a c :=
  ⟨h1.1.trans h2.1, h1.2.1.trans h2.2.1, le_trans h2.2.2 h1.2.2⟩

theorem SearchInv_of_trailEq {a b : Solver} (h : Solver.trailEq a b) (hb : SearchInv b) :
    SearchInv a := by
  refine ⟨?_, ?_, ?_⟩
  · rw [h.1, congrArg List.length h.2.1]
    exact hb.1
  · rw [h.2.2]
    exact hb.2.1
  · rw [h.2.2, congrArg List.length h.2.1]
    exact hb.2.2

theorem SearchInv_of_trailGrow {a b : Solver} (h : Solver.trailGrow a b) (hb : SearchInv b) :
    SearchInv a := by
  refine ⟨?_, ?_, ?_⟩
  · rw [h.1]
    exact le_trans hb.1 h.2.2
  · rw [h.2.1]
    exact hb.2.1
  · rw [h.2.1]
    exact fun x hx => le_trans (hb.2.2 x hx) h.2.2

/-- A state fold whose every step keeps the trail bookkeeping keeps it. -/
theorem foldl_trailEq {α : Type} (f : Solver → α → Solver)
    (hf : ∀ s x, Solver.trailEq (f s x) s) :
    ∀ (l : List α) (s : Solver), Solver.trailEq (l.foldl f s) s := by
  intro l
  induction l with
  | nil => intro s; exact trailEq_refl s
  | cons a t ih =>
      intro s
      rw [List.foldl_cons]
      exact trailEq_trans (ih _) (hf s a)

theorem setWatchList_trailEq (s : Solver) (p : Lit) (ws : List Watcher) :
    Solver.trailEq (s.setWatchList p ws) s := ⟨rfl, rfl, rfl⟩

theorem pushWatch_trailEq (s : Solver) (p : Lit) (w : Watcher) :
    Solver.trailEq (s.pushWatch p w) s := ⟨rfl, rfl, rfl⟩

theorem smudgeWatch_trailEq (s : Solver) (p : Lit) :
    Solver.trailEq (s.smudgeWatch p) s := ⟨rfl, rfl, rfl⟩

theorem cleanWatch_trailEq (s : Solver) (p : Lit) :
    Solver.trailEq (s.cleanWatch p) s := ⟨rfl, rfl, rfl⟩

theorem lookupWatch_trailEq (s : Solver) (p : Lit) :
    Solver.trailEq (s.lookupWatch p).2 s := by
  unfold Solver.lookupWatch
  dsimp only
  split
  · exact cleanWatch_trailEq s p
  · exact trailEq_refl s

theorem setClauseLits_trailEq (s : Solver) (cr : Nat) (ls : List Lit) :
    Solver.trailEq (s.setClauseLits cr ls) s := ⟨rfl, rfl, rfl⟩

theorem insertVarOrder_trailEq (s : Solver) (v : Nat) :
    Solver.trailEq (s.insertVarOrder v) s := by
  unfold Solver.insertVarOrder
  split
  · exact ⟨rfl, rfl, rfl⟩
  · exact trailEq_refl s

theorem heapRemoveMin_trailEq (s : Solver) :
    Solver.trailEq (s.heapRemoveMin).2 s := by
  unfold Solver.heapRemoveMin
  split
  · exact trailEq_refl s
  · exact ⟨rfl, rfl, rfl⟩

theorem varBumpActivity_trailEq (s : Solver) (v : Nat) :
    Solver.trailEq (s.varBumpActivity v) s := by
  unfold Solver.varBumpActivity
  dsimp only
  split <;> exact ⟨rfl, rfl, rfl⟩

theorem claBumpActivity_trailEq (s : Solver) (cr : Nat) :
    Solver.trailEq (s.claBumpActivity cr) s := by
  unfold Solver.claBumpActivity
  dsimp only
  split <;> exact ⟨rfl, rfl, rfl⟩

theorem varDecayActivity_trailEq (opts : Opts) (s : Solver) :
    Solver.trailEq (s.varDecayActivity opts) s := ⟨rfl, rfl, rfl⟩

theorem claDecayActivity_trailEq (opts : Opts) (s : Solver) :
    Solver.trailEq (s.claDecayActivity opts) s := ⟨rfl, rfl, rfl⟩

theorem allocClause_trailEq (s : Solver) (ls : List Lit) (b : Bool) :
    Solver.trailEq (s.allocClause ls b).2 s := ⟨rfl, rfl, rfl⟩

theorem attachClause_trailEq (s : Solver) (cr : Nat) :
    Solver.trailEq (s.attachClause cr) s := by
  unfold Solver.attachClause
  dsimp only
  split <;> exact ⟨rfl, rfl, rfl⟩

theorem detachClauseLazy_trailEq (s : Solver) (cr : Nat) :
    Solver.trailEq (s.detachClauseLazy cr) s := by
  unfold Solver.detachClauseLazy
  dsimp only
  split <;> exact ⟨rfl, rfl, rfl⟩

theorem removeClause_trailEq (s : Solver) (cr : Nat) :
    Solver.trailEq (s.removeClause cr) s := by
  unfold Solver.removeClause
  dsimp only
  refine trailEq_trans ?_ (detachClauseLazy_trailEq s cr)
  split <;> exact ⟨rfl, rfl, rfl⟩

theorem reduceDBfold_trailEq (n : Nat) (extraLim : Frac) :
    ∀ (l : List (Nat × Nat)) (acc : Solver × List Nat),
      Solver.trailEq (l.foldl (Solver.reduceDBStep n extraLim) acc).1 acc.1 := by
  intro l
  induction l with
  | nil => intro acc; exact trailEq_refl acc.1
  | cons hd tl ih =>
      intro acc
      rw [List.foldl_cons]
      refine trailEq_trans (ih _) ?_
      rcases acc with ⟨sk, keep⟩
      unfold Solver.reduceDBStep
      dsimp only
      split
      · exact removeClause_trailEq sk hd.2
      · exact trailEq_refl sk

theorem reduceDB_trailEq (s : Solver) : Solver.trailEq s.reduceDB s := by
  unfold Solver.reduceDB
  exact trailEq_trans ⟨rfl, rfl, rfl⟩
    (reduceDBfold_trailEq s.sortedLearnts.length
      (s.claInc / (s.learnts.length : Frac))
      ((List.range s.sortedLearnts.length).zip s.sortedLearnts) (s, []))

theorem rebuildOrderHeap_trailEq (s : Solver) :
    Solver.trailEq s.rebuildOrderHeap s := ⟨rfl, rfl, rfl⟩

theorem removeSatisfiedIn_trailEq (s : Solver) (refs : List Nat) :
    Solver.trailEq (s.removeSatisfiedIn refs).1 s := by
  unfold Solver.removeSatisfiedIn
  suffices h : ∀ (l : List Nat) (acc : Solver × List Nat),
      Solver.trailEq ((l.foldl (fun (acc : Solver × List Nat) cr =>
          let (s, keep) := acc
          let c := s.clauseAt cr
          if s.satisfiedC c then (s.removeClause cr, keep)
          else
            let lits := s.trimFalse c.lits 2 (2 * c.lits.length + 1)
            (s.setClauseLits cr lits, keep ++ [cr])) acc).1) acc.1 by
    exact h refs (s, [])
  intro l
  induction l with
  | nil => intro acc; exact trailEq_refl acc.1
  | cons hd tl ih =>
      intro acc
      rw [List.foldl_cons]
      refine trailEq_trans (ih _) ?_
      rcases acc with ⟨sk, keep⟩
      dsimp only
      split
      · exact removeClause_trailEq sk hd
      · exact setClauseLits_trailEq sk hd _

theorem analyzeSeenStep_trailEq (acc : Solver × Nat × List Lit) (q : Lit) :
    Solver.trailEq (Solver.analyzeSeenStep acc q).1 acc.1 := by
  rcases acc with ⟨sv, pc, ol⟩
  unfold Solver.analyzeSeenStep
  dsimp only
  split
  · split <;> exact trailEq_trans ⟨rfl, rfl, rfl⟩ (varBumpActivity_trailEq sv q.var)
  · exact trailEq_refl sv

theorem foldl_analyzeSeenStep_trailEq (ls : List Lit) :
    ∀ (acc : Solver × Nat × List Lit),
      Solver.trailEq (ls.foldl Solver.analyzeSeenStep acc).1 acc.1 := by
  induction ls with
  | nil => intro acc; exact trailEq_refl acc.1
  | cons a t ih =>
      intro acc
      rw [List.foldl_cons]
      exact trailEq_trans (ih _) (analyzeSeenStep_trailEq acc a)

theorem analyzeGo_trailEq :
    ∀ (fuel : Nat) (s : Solver) (confl : Option Nat) (p : Option Lit) (idx pc : Nat)
      (outl : List Lit),
      Solver.trailEq (Solver.analyzeGo fuel s confl p idx pc outl).1 s := by
  intro fuel
  induction fuel with
  | zero => intro s _ _ _ _ _; exact trailEq_refl s
  | succ fuel ih =>
      intro s confl p idx pc outl
      rw [Solver.analyzeGo]
      dsimp only
      rcases hfold : ((s.clauseAt (confl.getD 0)).lits.drop (if p = none then 0 else 1)).foldl
          Solver.analyzeSeenStep
          (if (s.clauseAt (confl.getD 0)).learnt then s.claBumpActivity (confl.getD 0) else s,
            pc, outl) with ⟨s2, pc2, ol2⟩
      dsimp only
      have h2 : Solver.trailEq s2 s := by
        have hx := foldl_analyzeSeenStep_trailEq
          ((s.clauseAt (confl.getD 0)).lits.drop (if p = none then 0 else 1))
          (if (s.clauseAt (confl.getD 0)).learnt then s.claBumpActivity (confl.getD 0) else s,
            pc, outl)
        rw [hfold] at hx
        refine trailEq_trans hx ?_
        split
        · exact claBumpActivity_trailEq s _
        · exact trailEq_refl s
      split
      · exact trailEq_trans (trailEq_trans (ih _ _ _ _ _ _) ⟨rfl, rfl, rfl⟩) h2
      · exact trailEq_trans ⟨rfl, rfl, rfl⟩ h2

theorem foldl_seenMark_trailEq (stack : List (Nat × Lit)) :
    ∀ (acc : Solver × List Lit),
      Solver.trailEq ((stack.foldl (fun (acc : Solver × List Lit) e =>
          if acc.1.seen.getD e.2.var 0 = 0 then
            ({ acc.1 with seen := acc.1.seen.set e.2.var 3 }, acc.2 ++ [e.2])
          else acc) acc).1) acc.1 := by
  induction stack with
  | nil => intro acc; exact trailEq_refl acc.1
  | cons a t ih =>
      intro acc
      rw [List.foldl_cons]
      refine trailEq_trans (ih _) ?_
      split
      · exact ⟨rfl, rfl, rfl⟩
      · exact trailEq_refl acc.1

theorem litRedGo_trailEq :
    ∀ (fuel : Nat) (s : Solver) (tc : List Lit) (p : Lit) (i : Nat)
      (stack : List (Nat × Lit)),
      Solver.trailEq (Solver.litRedGo fuel s tc p i stack).1 s := by
  intro fuel
  induction fuel with
  | zero => intro s _ _ _ _; exact trailEq_refl s
  | succ fuel ih =>
      intro s tc p i stack
      rw [Solver.litRedGo]
      dsimp only
      split
      · split
        · apply ih
        · split
          · exact foldl_seenMark_trailEq (stack ++ [(0, p)]) (s, tc)
          · apply ih
      · split
        · split <;> exact trailEq_refl s
        · refine trailEq_trans (ih _ _ _ _ _) ?_
          split <;> exact trailEq_refl s

theorem minimizeDeep_trailEq (fuel : Nat) :
    ∀ (rest : List Lit) (s : Solver) (tc acc : List Lit),
      Solver.trailEq (s.minimizeDeep tc fuel rest acc).1 s := by
  intro rest
  induction rest with
  | nil => intro s _ _; exact trailEq_refl s
  | cons a t ih =>
      intro s tc acc
      rw [Solver.minimizeDeep]
      dsimp only
      split
      · exact ih s tc (a :: acc)
      · rcases hred : s.litRedundant tc a fuel with ⟨s2, tc2, red⟩
        have h2 : Solver.trailEq s2 s := by
          have hx := litRedGo_trailEq fuel s tc a 1 []
          unfold Solver.litRedundant at hred
          rw [hred] at hx
          exact hx
        dsimp only
        split
        · exact trailEq_trans (ih _ _ _) h2
        · exact trailEq_trans (ih _ _ _) h2

theorem analyze_trailEq (opts : Opts) (s : Solver) (confl fuel : Nat) :
    Solver.trailEq (s.analyze opts confl fuel).1 s := by
  unfold Solver.analyze
  rcases hgo : Solver.analyzeGo fuel s (some confl) none (s.trail.length - 1) 0 []
    with ⟨s1, p, rest⟩
  have h1 : Solver.trailEq s1 s := by
    have hx := analyzeGo_trailEq fuel s (some confl) none (s.trail.length - 1) 0 []
    rw [hgo] at hx
    exact hx
  dsimp only
  by_cases hcc2 : opts.ccminMode = 2
  · rw [if_pos hcc2]
    rcases hmin : s1.minimizeDeep (negLit p :: rest) fuel rest [] with ⟨s2, tc2, kept⟩
    dsimp only
    have h2 : Solver.trailEq s2 s := by
      have hx := minimizeDeep_trailEq fuel rest s1 (negLit p :: rest) []
      rw [hmin] at hx
      exact trailEq_trans hx h1
    refine trailEq_trans (foldl_trailEq _ ?_ tc2 _) (trailEq_trans ⟨rfl, rfl, rfl⟩ h2)
    intro sv l
    exact ⟨rfl, rfl, rfl⟩
  · rw [if_neg hcc2]
    by_cases hcc1 : opts.ccminMode = 1
    · rw [if_pos hcc1]
      dsimp only
      refine trailEq_trans (foldl_trailEq _ ?_ _ _) (trailEq_trans ⟨rfl, rfl, rfl⟩ h1)
      intro sv l
      exact ⟨rfl, rfl, rfl⟩
    · rw [if_neg hcc1]
      dsimp only
      refine trailEq_trans (foldl_trailEq _ ?_ _ _) (trailEq_trans ⟨rfl, rfl, rfl⟩ h1)
      intro sv l
      exact ⟨rfl, rfl, rfl⟩

theorem analyzeFinal_trailEq (s : Solver) (p : Lit) :
    Solver.trailEq (s.analyzeFinal p) s := by
  unfold Solver.analyzeFinal
  dsimp only
  split
  · exact ⟨rfl, rfl, rfl⟩
  · refine trailEq_trans ⟨rfl, rfl, rfl⟩
      (trailEq_trans (foldl_trailEq _ ?_ _ _) ⟨rfl, rfl, rfl⟩)
    intro sv i
    dsimp only
    split
    · split
      · split
        · exact ⟨rfl, rfl, rfl⟩
        · exact ⟨rfl, rfl, rfl⟩
      · refine trailEq_trans ⟨rfl, rfl, rfl⟩ (foldl_trailEq _ ?_ _ _)
        intro sw q
        dsimp only
        split
        · exact ⟨rfl, rfl, rfl⟩
        · exact trailEq_refl sw
    · exact trailEq_refl sv

theorem pickBranchLoop_trailEq (s : Solver) (next : Option Nat) (fuel : Nat) :
    Solver.trailEq (s.pickBranchLoop next fuel).2 s := by
  induction fuel generalizing s next with
  | zero => exact trailEq_refl s
  | succ fuel ih =>
      rw [Solver.pickBranchLoop.eq_def]
      dsimp only
      split
      · split
        · exact trailEq_refl s
        · exact trailEq_trans (ih _ _) (heapRemoveMin_trailEq s)
      · exact trailEq_refl s

theorem pickBranchLit_trailEq (opts : Opts) (O : Oracle) (s : Solver) :
    Solver.trailEq (s.pickBranchLit opts O).2 s := by
  unfold Solver.pickBranchLit
  dsimp only
  repeat' split
  all_goals
    first
      | exact trailEq_refl s
      | exact ⟨rfl, rfl, rfl⟩
      | exact trailEq_trans (pickBranchLoop_trailEq _ _ _) ⟨rfl, rfl, rfl⟩
      | exact trailEq_trans ⟨rfl, rfl, rfl⟩
          (trailEq_trans (pickBranchLoop_trailEq _ _ _) ⟨rfl, rfl, rfl⟩)

theorem uncheckedEnqueue_fields (s : Solver) (p : Lit) (r : Option Nat) :
    (s.uncheckedEnqueue p r).qhead = s.qhead ∧
      (s.uncheckedEnqueue p r).trail = s.trail ++ [p] ∧
      (s.uncheckedEnqueue p r).trailLim = s.trailLim :=
  ⟨rfl, rfl, rfl⟩

theorem uncheckedEnqueue_trailGrow (s : Solver) (p : Lit) (r : Option Nat) :
    Solver.trailGrow (s.uncheckedEnqueue p r) s := by
  refine ⟨rfl, rfl, ?_⟩
  rw [(uncheckedEnqueue_fields s p r).2.1, List.length_append]
  omega

theorem uncheckedEnqueue_inv (s : Solver) (p : Lit) (r : Option Nat) (h : SearchInv s) :
    SearchInv (s.uncheckedEnqueue p r) :=
  SearchInv_of_trailGrow (uncheckedEnqueue_trailGrow s p r) h

theorem newDecisionLevel_inv (s : Solver) (h : SearchInv s) :
    SearchInv s.newDecisionLevel := by
  refine ⟨h.1, ?_, ?_⟩
  · show (s.trailLim ++ [s.trail.length]).Pairwise (· ≤ ·)
    rw [List.pairwise_append]
    exact ⟨h.2.1, List.pairwise_singleton _ _,
      fun a ha b hb => (List.mem_singleton.mp hb) ▸ h.2.2 a ha⟩
  · intro x hx
    rcases List.mem_append.mp hx with hx1 | hx1
    · exact h.2.2 x hx1
    · exact le_of_eq (List.mem_singleton.mp hx1)

theorem cancelUntil_inv (opts : Opts) (s : Solver) (lvl : Nat) (h : SearchInv s) :
    SearchInv (s.cancelUntil opts lvl) := by
  unfold Solver.cancelUntil
  split
  · rename_i hlt
    have hlvl : lvl < s.trailLim.length := hlt
    have hkeep : s.trailLim.getD lvl 0 = s.trailLim[lvl] := List.getD_eq_getElem _ _ hlvl
    have hkm : s.trailLim.getD lvl 0 ≤ s.trail.length := by
      rw [hkeep]
      exact h.2.2 _ (List.getElem_mem hlvl)
    refine ⟨?_, ?_, ?_⟩
    · show s.trailLim.getD lvl 0 ≤ (s.trail.take (s.trailLim.getD lvl 0)).length
      rw [List.length_take]
      omega
    · show (s.trailLim.take lvl).Pairwise (· ≤ ·)
      exact h.2.1.sublist (List.take_sublist lvl s.trailLim)
    · dsimp only
      intro x hx
      rcases List.mem_iff_getElem.mp hx with ⟨j, hj, hje⟩
      have hj' : j < lvl ∧ j < s.trailLim.length := by
        have hl := hj
        rw [List.length_take] at hl
        omega
      rw [List.getElem_take] at hje
      have hrel : s.trailLim[j] ≤ s.trailLim[lvl] :=
        List.pairwise_iff_getElem.mp h.2.1 j lvl hj'.2 hlvl hj'.1
      have hxb : x ≤ s.trailLim.getD lvl 0 := by
        rw [hkeep]
        exact hje ▸ hrel
      rw [List.length_take]
      omega
  · exact h

theorem processWatchers_trailGrow (p : Lit) :
    ∀ (ws kept : List Watcher) (s : Solver),
      Solver.trailGrow (s.processWatchers p ws kept).1 s := by
  intro ws
  induction ws with
  | nil => intro kept s; exact trailGrow_of_trailEq (trailEq_refl s)
  | cons w rest ih =>
      intro kept s
      rw [Solver.processWatchers]
      dsimp only
      split
      · exact ih (w :: kept) s
      · split
        · split
          · exact trailGrow_trans (ih _ _)
              (trailGrow_of_trailEq (setClauseLits_trailEq s _ _))
          · split
            · exact trailGrow_trans (ih _ _)
                (trailGrow_of_trailEq (trailEq_trans (pushWatch_trailEq _ _ _)
                  (trailEq_trans (setClauseLits_trailEq _ _ _) (setClauseLits_trailEq s _ _))))
            · split
              · exact trailGrow_of_trailEq (setClauseLits_trailEq s _ _)
              · exact trailGrow_trans (ih _ _)
                  (trailGrow_trans (uncheckedEnqueue_trailGrow _ _ _)
                    (trailGrow_of_trailEq (setClauseLits_trailEq s _ _)))
        · split
          · exact trailGrow_trans (ih _ _)
              (trailGrow_of_trailEq (setClauseLits_trailEq s _ _))
          · split
            · exact trailGrow_trans (ih _ _)
                (trailGrow_of_trailEq (trailEq_trans (pushWatch_trailEq _ _ _)
                  (trailEq_trans (setClauseLits_trailEq _ _ _) (setClauseLits_trailEq s _ _))))
            · split
              · exact trailGrow_of_trailEq (setClauseLits_trailEq s _ _)
              · exact trailGrow_trans (ih _ _)
                  (trailGrow_trans (uncheckedEnqueue_trailGrow _ _ _)
                    (trailGrow_of_trailEq (setClauseLits_trailEq s _ _)))

theorem propagateGo_inv :
    ∀ (fuel : Nat) (s : Solver) (np : Nat), SearchInv s →
      SearchInv (s.propagateGo fuel np).2.1 ∧
        (s.propagateGo fuel np).2.1.trailLim = s.trailLim := by
  intro fuel
  induction fuel with
  | zero => intro s np h; exact ⟨h, rfl⟩
  | succ fuel ih =>
      intro s np h
      rw [Solver.propagateGo.eq_def]
      dsimp only
      split
      · rename_i hq
        generalize hG : ({ s with qhead := s.qhead + 1 }).lookupWatch
            (s.trail.get ⟨s.qhead, hq⟩) = LW
        obtain ⟨ws, s2⟩ := LW
        dsimp only
        generalize hP : s2.processWatchers (s.trail.get ⟨s.qhead, hq⟩) ws [] = PR
        obtain ⟨s3, kept, confl⟩ := PR
        dsimp only
        have h2 : Solver.trailEq s2 { s with qhead := s.qhead + 1 } := by
          have hx := lookupWatch_trailEq { s with qhead := s.qhead + 1 }
            (s.trail.get ⟨s.qhead, hq⟩)
          rw [hG] at hx
          exact hx
        have h3 : Solver.trailGrow s3 s2 := by
          have hx := processWatchers_trailGrow (s.trail.get ⟨s.qhead, hq⟩) ws [] s2
          rw [hP] at hx
          exact hx
        have hq3 : s3.qhead = s.qhead + 1 := by rw [h3.1, h2.1]
        have hl3 : s3.trailLim = s.trailLim := by rw [h3.2.1, h2.2.2]
        have ht3 : s.trail.length ≤ s3.trail.length := by
          refine le_trans (le_of_eq ?_) h3.2.2
          rw [h2.2.1]
        have hInv4 : SearchInv (s3.setWatchList (s.trail.get ⟨s.qhead, hq⟩) kept) := by
          refine ⟨?_, ?_, ?_⟩
          · show s3.qhead ≤ s3.trail.length
            rw [hq3]
            exact le_trans hq ht3
          · show s3.trailLim.Pairwise (· ≤ ·)
            rw [hl3]
            exact h.2.1
          · show ∀ x ∈ s3.trailLim, x ≤ s3.trail.length
            rw [hl3]
            exact fun x hx => le_trans (h.2.2 x hx) ht3
        rcases confl with _ | cr
        · have hrec := ih (s3.setWatchList (s.trail.get ⟨s.qhead, hq⟩) kept) (np + 1) hInv4
          exact ⟨hrec.1, hrec.2.trans hl3⟩
        · refine ⟨⟨le_refl _, ?_, ?_⟩, ?_⟩
          · show s3.trailLim.Pairwise (· ≤ ·)
            rw [hl3]
            exact h.2.1
          · show ∀ x ∈ s3.trailLim, x ≤ s3.trail.length
            rw [hl3]
            exact fun x hx => le_trans (h.2.2 x hx) ht3
          · exact hl3
      · exact ⟨h, rfl⟩

theorem propagate_inv (s : Solver) (fuel : Nat) (h : SearchInv s) :
    SearchInv (s.propagate fuel).2 ∧ (s.propagate fuel).2.trailLim = s.trailLim := by
  unfold Solver.propagate
  rcases hgo : s.propagateGo fuel 0 with ⟨confl, s2, np⟩
  have hx := propagateGo_inv fuel s 0 h
  rw [hgo] at hx
  exact ⟨SearchInv_of_trailEq ⟨rfl, rfl, rfl⟩ hx.1, hx.2⟩

theorem searchConflict_inv (opts : Opts) (s : Solver) (cr fuel : Nat) (h : SearchInv s) :
    SearchInv (s.searchConflict opts cr fuel) := by
  unfold Solver.searchConflict
  generalize hA : s.analyze opts cr fuel = R
  obtain ⟨s1, lc, btl⟩ := R
  dsimp only
  have h1 : SearchInv s1 := by
    have hx := analyze_trailEq opts s cr fuel
    rw [hA] at hx
    exact SearchInv_of_trailEq hx h
  have h2 : SearchInv (s1.cancelUntil opts btl) := cancelUntil_inv opts s1 btl h1
  rcases lc with _ | ⟨l1, _ | ⟨l2, tl⟩⟩
  · dsimp only
    generalize hAl : (s1.cancelUntil opts btl).allocClause [] true = AL
    obtain ⟨cr2, s4⟩ := AL
    dsimp only
    have h5 : SearchInv s4 := by
      have hx := allocClause_trailEq (s1.cancelUntil opts btl) [] true
      rw [hAl] at hx
      exact SearchInv_of_trailEq hx h2
    have h4 : SearchInv ((((({ s4 with learnts := s4.learnts ++ [cr2] }).attachClause
        cr2).claBumpActivity cr2)).uncheckedEnqueue (([] : List Lit).getD 0 defaultLit)
        (some cr2)) := by
      refine uncheckedEnqueue_inv _ _ _ (SearchInv_of_trailEq ?_ h5)
      exact trailEq_trans (claBumpActivity_trailEq _ _)
        (trailEq_trans (attachClause_trailEq _ _) ⟨rfl, rfl, rfl⟩)
    split <;> exact SearchInv_of_trailEq (trailEq_trans ⟨rfl, rfl, rfl⟩
      (trailEq_trans (claDecayActivity_trailEq opts _) (varDecayActivity_trailEq opts _))) h4
  · dsimp only
    have h4 : SearchInv ((s1.cancelUntil opts btl).uncheckedEnqueue l1 none) :=
      uncheckedEnqueue_inv _ _ _ h2
    split <;> exact SearchInv_of_trailEq (trailEq_trans ⟨rfl, rfl, rfl⟩
      (trailEq_trans (claDecayActivity_trailEq opts _) (varDecayActivity_trailEq opts _))) h4
  · dsimp only
    generalize hAl : (s1.cancelUntil opts btl).allocClause (l1 :: l2 :: tl) true = AL
    obtain ⟨cr2, s4⟩ := AL
    dsimp only
    have h5 : SearchInv s4 := by
      have hx := allocClause_trailEq (s1.cancelUntil opts btl) (l1 :: l2 :: tl) true
      rw [hAl] at hx
      exact SearchInv_of_trailEq hx h2
    have h4 : SearchInv ((((({ s4 with learnts := s4.learnts ++ [cr2] }).attachClause
        cr2).claBumpActivity cr2)).uncheckedEnqueue ((l1 :: l2 :: tl).getD 0 defaultLit)
        (some cr2)) := by
      refine uncheckedEnqueue_inv _ _ _ (SearchInv_of_trailEq ?_ h5)
      exact trailEq_trans (claBumpActivity_trailEq _ _)
        (trailEq_trans (attachClause_trailEq _ _) ⟨rfl, rfl, rfl⟩)
    split <;> exact SearchInv_of_trailEq (trailEq_trans ⟨rfl, rfl, rfl⟩
      (trailEq_trans (claDecayActivity_trailEq opts _) (varDecayActivity_trailEq opts _))) h4

/-- Recording a fresh original clause in `clauses` keeps the trail
bookkeeping. -/
theorem allocRecordC_trailEq (s : Solver) (ls : List Lit) (b : Bool) :
    Solver.trailEq { (s.allocClause ls b).2 with
      clauses := (s.allocClause ls b).2.clauses ++ [(s.allocClause ls b).1] } s :=
  ⟨rfl, rfl, rfl⟩

/-- Recording a fresh learnt clause in `learnts` keeps the trail
bookkeeping. -/
theorem allocRecordL_trailEq (s : Solver) (ls : List Lit) (b : Bool) :
    Solver.trailEq { (s.allocClause ls b).2 with
      learnts := (s.allocClause ls b).2.learnts ++ [(s.allocClause ls b).1] } s :=
  ⟨rfl, rfl, rfl⟩

theorem ingestConflictingSpec_inv (opts : Opts) (s0 : Solver) (clause : List Lit)
    (hDl fuel : Nat) (h : SearchInv s0) :
    SearchInv (Solver.ingestConflictingSpec opts s0 clause hDl fuel).2 := by
  unfold Solver.ingestConflictingSpec
  dsimp only
  split
  · exact uncheckedEnqueue_inv _ _ _ (cancelUntil_inv _ _ _
      (SearchInv_of_trailEq (analyze_trailEq _ _ _ _)
        (SearchInv_of_trailEq (trailEq_trans (attachClause_trailEq _ _)
          (allocRecordC_trailEq _ _ _)) (cancelUntil_inv opts s0 hDl h))))
  · exact uncheckedEnqueue_inv _ _ _ (SearchInv_of_trailEq
      (trailEq_trans (claBumpActivity_trailEq _ _)
        (trailEq_trans (attachClause_trailEq _ _) (allocRecordL_trailEq _ _ _)))
      (cancelUntil_inv _ _ _ (SearchInv_of_trailEq (analyze_trailEq _ _ _ _)
        (SearchInv_of_trailEq (trailEq_trans (attachClause_trailEq _ _)
          (allocRecordC_trailEq _ _ _)) (cancelUntil_inv opts s0 hDl h)))))

theorem addClauseDuringSearch_inv (opts : Opts) (s : Solver) (cls : List Lit) (fuel : Nat)
    (h : SearchInv s) : SearchInv (s.addClauseDuringSearch opts cls fuel).2 := by
  unfold Solver.addClauseDuringSearch
  split
  · exact h
  · dsimp only
    split
    · exact uncheckedEnqueue_inv _ _ _ (cancelUntil_inv opts s 0 h)
    · split
      · exact h
      · split
        · refine uncheckedEnqueue_inv _ _ _ (SearchInv_of_trailEq ?_
            (cancelUntil_inv opts s
              (s.levelOf ((List.insertionSort (ingestLe s) cls).getD
                ((List.insertionSort (ingestLe s) cls).takeWhile
                  (fun l => s.valueL l = .undef)).length defaultLit).var) h))
          refine trailEq_trans (attachClause_trailEq _ _)
            (trailEq_trans ⟨rfl, rfl, rfl⟩ (trailEq_trans
              (foldl_trailEq _ ?_ _ _) ⟨rfl, rfl, rfl⟩))
          intro sv l
          exact varBumpActivity_trailEq sv l.var
        · split
          · -- conflicting branch: the spec composition, whose invariance
            -- is proved separately
            exact ingestConflictingSpec_inv opts s (List.insertionSort (ingestLe s) cls)
              (s.levelOf ((List.insertionSort (ingestLe s) cls).getD
                ((List.insertionSort (ingestLe s) cls).takeWhile
                  (fun l => s.valueL l = .undef)).length defaultLit).var) fuel h
          · split
            · refine uncheckedEnqueue_inv _ _ _ (SearchInv_of_trailEq ?_
                (cancelUntil_inv opts s
                  (s.levelOf (((List.insertionSort (ingestLe s) cls).getD 1
                    defaultLit).var)) h))
              refine trailEq_trans (attachClause_trailEq _ _)
                (trailEq_trans ⟨rfl, rfl, rfl⟩ (trailEq_trans
                  (foldl_trailEq _ ?_ _ _) ⟨rfl, rfl, rfl⟩))
              intro sv l
              exact varBumpActivity_trailEq sv l.var
            · exact uncheckedEnqueue_inv _ _ _ (cancelUntil_inv opts s 0 h)

theorem inv_lim_of_trailEq {a b : Solver} (e : Solver.trailEq a b)
    (h : SearchInv b ∧ b.trailLim = []) : SearchInv a ∧ a.trailLim = [] :=
  ⟨SearchInv_of_trailEq e h.1, e.2.2.trans h.2⟩

/-- The `remove_satisfied` block of `simplify` (Solver.cc 657-680)
preserves the search invariant and keeps the decision-level stack
empty: the shrunk trail is re-read in full (`qhead := trail.size()`). -/
theorem simplifyRS_inv (s1 : Solver) (hlim : s1.trailLim = []) :
    SearchInv s1.simplifyRS ∧ s1.simplifyRS.trailLim = [] := by
  have hq0 := removeSatisfiedIn_trailEq s1 s1.clauses
  unfold Solver.simplifyRS
  generalize hq : s1.removeSatisfiedIn s1.clauses = q
  rw [hq] at hq0
  obtain ⟨sA, keep⟩ := q
  dsimp only at hq0 ⊢
  have hCt : Solver.trailEq ({ sA with clauses := keep } : Solver) s1 :=
    trailEq_trans ⟨rfl, rfl, rfl⟩ hq0
  have hDt0 : Solver.trailEq
      (({ sA with clauses := keep } : Solver).releasedVars.foldl
        (fun s v => { s with seen := s.seen.set v 1 }) { sA with clauses := keep })
      { sA with clauses := keep } :=
    foldl_trailEq (fun s v => { s with seen := s.seen.set v 1 })
      (fun s v => ⟨rfl, rfl, rfl⟩) _ _
  generalize hD : ({ sA with clauses := keep } : Solver).releasedVars.foldl
      (fun (s : Solver) (v : Nat) => { s with seen := s.seen.set v 1 })
      { sA with clauses := keep } = D
  rw [hD] at hDt0
  have hFt0 : Solver.trailEq
      (({ D with
          trail := D.trail.filter (fun l => D.seen.getD l.var 0 = 0),
          qhead := (D.trail.filter (fun l => D.seen.getD l.var 0 = 0)).length } :
            Solver).releasedVars.foldl
        (fun s v => { s with seen := s.seen.set v 0 })
        { D with
          trail := D.trail.filter (fun l => D.seen.getD l.var 0 = 0),
          qhead := (D.trail.filter (fun l => D.seen.getD l.var 0 = 0)).length })
      { D with
        trail := D.trail.filter (fun l => D.seen.getD l.var 0 = 0),
        qhead := (D.trail.filter (fun l => D.seen.getD l.var 0 = 0)).length } :=
    foldl_trailEq (fun s v => { s with seen := s.seen.set v 0 })
      (fun s v => ⟨rfl, rfl, rfl⟩) _ _
  generalize hF : (({ D with
      trail := D.trail.filter (fun l => D.seen.getD l.var 0 = 0),
      qhead := (D.trail.filter (fun l => D.seen.getD l.var 0 = 0)).length } :
        Solver).releasedVars.foldl
      (fun (s : Solver) (v : Nat) => { s with seen := s.seen.set v 0 })
      { D with
        trail := D.trail.filter (fun l => D.seen.getD l.var 0 = 0),
        qhead := (D.trail.filter (fun l => D.seen.getD l.var 0 = 0)).length }) = F
  rw [hF] at hFt0
  have hFq : F.qhead = (D.trail.filter (fun l => D.seen.getD l.var 0 = 0)).length := hFt0.1
  have hFtr : F.trail = D.trail.filter (fun l => D.seen.getD l.var 0 = 0) := hFt0.2.1
  have hFl : F.trailLim = [] := by
    have h1 : F.trailLim = D.trailLim := hFt0.2.2
    have h2 : D.trailLim = s1.trailLim := hDt0.2.2.trans hCt.2.2
    rw [h1, h2, hlim]
  refine ⟨⟨?_, ?_, ?_⟩, ?_⟩
  · show F.qhead ≤ F.trail.length
    rw [hFq, hFtr]
  · show F.trailLim.Pairwise (· ≤ ·)
    rw [hFl]
    exact List.Pairwise.nil
  · show ∀ x ∈ F.trailLim, x ≤ F.trail.length
    intro x hx
    rw [hFl] at hx
    exact absurd hx (List.not_mem_nil x)
  · show F.trailLim = []
    exact hFl

/-- `simplify` (called from the search loop only at decision level 0)
preserves the search invariant and leaves the decision-level stack
empty. -/
theorem simplify_inv (opts : Opts) (s : Solver) (fuel : Nat) (h : SearchInv s)
    (hlim : s.trailLim = []) :
    SearchInv (s.simplify opts fuel).2 ∧ (s.simplify opts fuel).2.trailLim = [] := by
  unfold Solver.simplify
  split
  · exact ⟨SearchInv_of_trailEq ⟨rfl, rfl, rfl⟩ h, hlim⟩
  · have hp := propagate_inv s fuel h
    generalize hP : s.propagate fuel = P
    rw [hP] at hp
    obtain ⟨confl, s1⟩ := P
    dsimp only at hp ⊢
    have h1 : SearchInv s1 := hp.1
    have hl1 : s1.trailLim = [] := hp.2.trans hlim
    split
    · exact ⟨SearchInv_of_trailEq ⟨rfl, rfl, rfl⟩ h1, hl1⟩
    · split
      · exact ⟨h1, hl1⟩
      · have hLt := removeSatisfiedIn_trailEq s1 s1.learnts
        generalize hL : s1.removeSatisfiedIn s1.learnts = L
        rw [hL] at hLt
        obtain ⟨sA, keepL⟩ := L
        dsimp only at hLt ⊢
        have hCt : Solver.trailEq ({ sA with learnts := keepL } : Solver) s1 :=
          trailEq_trans ⟨rfl, rfl, rfl⟩ hLt
        have hC : SearchInv ({ sA with learnts := keepL } : Solver) ∧
            ({ sA with learnts := keepL } : Solver).trailLim = [] :=
          ⟨SearchInv_of_trailEq hCt h1, hCt.2.2.trans hl1⟩
        split
        · refine inv_lim_of_trailEq (trailEq_trans ⟨rfl, rfl, rfl⟩
            (rebuildOrderHeap_trailEq _)) ?_
          exact simplifyRS_inv { sA with learnts := keepL } hC.2
        · exact inv_lim_of_trailEq (trailEq_trans ⟨rfl, rfl, rfl⟩
            (rebuildOrderHeap_trailEq _)) hC

/-- The assignment-cutoff prerun check preserves the search invariant. -/
theorem checkCutoff_inv (opts : Opts) (s : Solver) (fuel : Nat) (h : SearchInv s) :
    SearchInv (s.checkCutoff opts fuel).2 := by
  unfold Solver.checkCutoff
  dsimp only
  repeat' split
  all_goals first
    | exact h
    | exact addClauseDuringSearch_inv opts s _ fuel h

/-- The SMS assignment check (minimality, 010-colorability, cutoff)
preserves the search invariant. -/
theorem checkAssignment_inv (opts : Opts) (O : Oracle) (s : Solver) (isFull : Bool)
    (fuel : Nat) (h : SearchInv s) :
    SearchInv (s.checkAssignment opts O isFull fuel).2 := by
  unfold Solver.checkAssignment
  dsimp only
  repeat' split
  all_goals first
    | exact h
    | exact addClauseDuringSearch_inv opts s _ fuel h
    | exact checkCutoff_inv opts s fuel h

/-- The assumption-branching loop preserves the search invariant (each
satisfied assumption opens a dummy decision level; `newDecisionLevel`
pushes `trail.length`, which keeps the bounds non-strict). -/
theorem assumpLoop_inv (s : Solver) (fuel : Nat) (h : SearchInv s) :
    SearchInv (s.assumpLoop fuel).2 := by
  induction fuel generalizing s with
  | zero => exact h
  | succ fuel ih =>
      rw [Solver.assumpLoop.eq_def]
      dsimp only
      split
      · split
        · exact ih s.newDecisionLevel (newDecisionLevel_inv s h)
        · split
          · exact SearchInv_of_trailEq (analyzeFinal_trailEq s _) h
          · exact h
      · exact h

/-- The NO CONFLICT branch of the search loop preserves the search
invariant (on the state it continues with or returns). -/
theorem searchNoConflict_inv (opts : Opts) (O : Oracle) (nofConflicts : Int)
    (conflictC : Nat) (s : Solver) (fuel : Nat) (h : SearchInv s) :
    SearchInv (Solver.searchNoConflict opts O nofConflicts conflictC s fuel).state := by
  unfold Solver.searchNoConflict
  split
  · exact cancelUntil_inv opts _ 0 (SearchInv_of_trailEq ⟨rfl, rfl, rfl⟩ h)
  · have hPinv : SearchInv (if s.decisionLevel = 0 then s.simplify opts (s.nVars + 1)
        else (true, s)).2 := by
      split
      · rename_i hdl
        exact (simplify_inv opts s (s.nVars + 1) h
          (List.eq_nil_of_length_eq_zero hdl)).1
      · exact h
    generalize hP : (if s.decisionLevel = 0 then s.simplify opts (s.nVars + 1)
        else (true, s)) = P
    rw [hP] at hPinv
    obtain ⟨simpOk, s1⟩ := P
    dsimp only at hPinv ⊢
    split
    · exact hPinv
    · have hR : SearchInv (if s1.maxLearnts ≤ (s1.learnts.length : Frac) -
          (s1.nAssigns : Frac) then s1.reduceDB else s1) := by
        split
        · exact SearchInv_of_trailEq (reduceDB_trailEq s1) hPinv
        · exact hPinv
      generalize hR2 : (if s1.maxLearnts ≤ (s1.learnts.length : Frac) -
          (s1.nAssigns : Frac) then s1.reduceDB else s1) = s2
      rw [hR2] at hR
      have hCA := checkAssignment_inv opts O s2
        ((List.range (opts.vertices * (opts.vertices - 1) / 2)).all
          (fun v => s2.valueVar v ≠ .undef)) fuel hR
      generalize hC : s2.checkAssignment opts O
        ((List.range (opts.vertices * (opts.vertices - 1) / 2)).all
          (fun v => s2.valueVar v ≠ .undef)) fuel = C
      rw [hC] at hCA
      obtain ⟨st, s3⟩ := C
      dsimp only at hCA ⊢
      split
      · exact hCA
      · split
        · exact hCA
        · have hAL := assumpLoop_inv s3 (s3.assumptions.length + 1) hCA
          generalize hA : s3.assumpLoop (s3.assumptions.length + 1) = A
          rw [hA] at hAL
          obtain ⟨ar, s4⟩ := A
          dsimp only at hAL ⊢
          cases ar with
          | unsatFinal => exact hAL
          | next nxt =>
              cases nxt with
              | some p =>
                  dsimp only
                  exact uncheckedEnqueue_inv _ _ _ (newDecisionLevel_inv s4 hAL)
              | none =>
                  dsimp only
                  have hPBInv : SearchInv
                      (({ s4 with decisions := s4.decisions + 1 } :
                        Solver).pickBranchLit opts O).2 :=
                    SearchInv_of_trailEq (trailEq_trans
                      (pickBranchLit_trailEq opts O
                        { s4 with decisions := s4.decisions + 1 })
                      ⟨rfl, rfl, rfl⟩) hAL
                  generalize hN : ({ s4 with decisions := s4.decisions + 1 } :
                      Solver).pickBranchLit opts O = N
                  rw [hN] at hPBInv
                  obtain ⟨nxt2, s5⟩ := N
                  dsimp only at hPBInv ⊢
                  cases nxt2 with
                  | none => exact hPBInv
                  | some l =>
                      exact uncheckedEnqueue_inv _ _ _ (newDecisionLevel_inv s5 hPBInv)

/-- One iteration of the search loop preserves the search invariant. -/
theorem searchBody_inv (opts : Opts) (O : Oracle) (nofConflicts : Int) (s : Solver)
    (conflictC fuel : Nat) (h : SearchInv s) :
    SearchInv (s.searchBody opts O nofConflicts conflictC fuel).state := by
  unfold Solver.searchBody
  generalize h1 : O.clock s.ticks = c
  generalize h2 : s.solveTime + c = st2
  generalize h3 : s.ticks + 1 = tk
  generalize h4 : ({ s with solveTime := st2, ticks := tk } : Solver) = R
  dsimp only
  have hR : SearchInv R := by
    rw [← h4]
    exact SearchInv_of_trailEq ⟨rfl, rfl, rfl⟩ h
  have hp := propagate_inv R (R.nVars + 1) hR
  generalize hP : R.propagate (R.nVars + 1) = P
  rw [hP] at hp
  clear hP
  obtain ⟨confl, s2⟩ := P
  dsimp only at hp ⊢
  cases confl with
  | some cr =>
      dsimp only
      split
      · exact SearchInv_of_trailEq ⟨rfl, rfl, rfl⟩ hp.1
      · exact searchConflict_inv opts _ cr fuel
          (SearchInv_of_trailEq ⟨rfl, rfl, rfl⟩ hp.1)
  | none => exact searchNoConflict_inv opts O nofConflicts conflictC s2 fuel hp.1

/-- Every recorded loop-top state of `searchGo` satisfies the search
invariant when the entry state does. -/
theorem searchGo_inv (opts : Opts) (O : Oracle) (nofConflicts : Int) (fuel : Nat)
    (iters : Nat) (s : Solver) (cC : Nat) (h : SearchInv s) :
    ∀ st ∈ (Solver.searchGo opts O nofConflicts fuel iters s cC).2.2, SearchInv st := by
  induction iters generalizing s cC with
  | zero =>
      intro st hst
      exact absurd hst (List.not_mem_nil st)
  | succ n ih =>
      rw [Solver.searchGo.eq_def]
      dsimp only
      have hb := searchBody_inv opts O nofConflicts s cC fuel h
      generalize hB : s.searchBody opts O nofConflicts cC fuel = B
      rw [hB] at hb
      cases B with
      | stop r s1 =>
          dsimp only
          intro st hst
          have hs : st = s := List.mem_singleton.mp hst
          rw [hs]
          exact h
      | cont s1 cC1 =>
          dsimp only
          have hrec := ih s1 cC1 hb
          generalize hG : Solver.searchGo opts O nofConflicts fuel n s1 cC1 = G
          rw [hG] at hrec
          obtain ⟨r, s2, tr⟩ := G
          dsimp only at hrec ⊢
          intro st hst
          rcases List.mem_cons.mp hst with h1 | h1
          · rw [h1]
            exact h
          · exact hrec st h1

/-- C7, counterexample: the claim asserts that at the top of every search
iteration the decision-level boundary array is strictly increasing
(`trail_lim[i] < trail_lim[i+1]`).  On a run with two assumptions that
propagation satisfies at once, the loop opens a dummy decision level for
each already-satisfied assumption (Solver.cc 845-858) without pushing a
trail literal, so the second loop-top state has `trail_lim = [1, 1]` and
the strict inequality fails at the adjacent pair. -/
theorem C7_counterexample_dummy_levels :
    ¬ ∀ st ∈ assumpSolver.searchTrace stdOpts passOracle 100 50 3,
        ∀ i, i + 1 < st.trailLim.length →
          st.trailLim.getD i 0 < st.trailLim.getD (i + 1) 0 := by
  intro hall
  exact absurd
    (hall ((assumpSolver.searchTrace stdOpts passOracle 100 50 3).getD 1 assumpSolver)
      (by decide) 0 (by decide))
    (by decide)

/-- C7 (amended): at the top of every iteration of the search loop,
`qhead ≤ trail.size()` holds and the decision-level boundary array is
non-decreasing (`trail_lim[i] ≤ trail_lim[i+1]`) with every boundary at
most the trail length.  Strict increase does NOT hold: a dummy decision
level opened for an already-satisfied assumption (Solver.cc 845-858)
repeats the previous boundary. -/
theorem C7_search_invariant (opts : Opts) (O : Oracle) (nofConflicts : Int)
    (fuel iters : Nat) (s : Solver) (h : SearchInv s) :
    ∀ st ∈ s.searchTrace opts O nofConflicts fuel iters,
      st.qhead ≤ st.trail.length ∧ st.trailLim.Pairwise (· ≤ ·) ∧
        ∀ x ∈ st.trailLim, x ≤ st.trail.length := by
  intro st hst
  exact searchGo_inv opts O nofConflicts fuel iters
    { s with starts := s.starts + 1 } 0 (SearchInv_of_trailEq ⟨rfl, rfl, rfl⟩ h) st hst

/-- Witness for C7: the amended invariant instantiated on a concrete
run (two assumptions, three loop iterations). -/
theorem C7_search_invariant_witness :
    SearchInv assumpSolver ∧
      ∀ st ∈ assumpSolver.searchTrace stdOpts passOracle 100 50 3,
        st.qhead ≤ st.trail.length ∧ st.trailLim.Pairwise (· ≤ ·) ∧
          ∀ x ∈ st.trailLim, x ≤ st.trail.length :=
  ⟨by decide, C7_search_invariant stdOpts passOracle 100 50 3 assumpSolver (by decide)⟩

/-- After `propagateGo` the propagation queue is drained
(`qhead = trail.size()`): the conflict branch sets it explicitly
(Solver.cc 548), and the normal exit happens when the loop condition
`qhead < trail.size()` has just failed.  The only exception is the
embedding's dequeue fuel running out, in which case exactly `fuel`
dequeues were executed. -/
theorem propagateGo_qhead :
    ∀ (fuel : Nat) (s : Solver) (np : Nat), s.qhead ≤ s.trail.length →
      (s.propagateGo fuel np).2.1.qhead = (s.propagateGo fuel np).2.1.trail.length ∨
        ((s.propagateGo fuel np).1 = none ∧ (s.propagateGo fuel np).2.2 = np + fuel) := by
  intro fuel
  induction fuel with
  | zero => intro s np h; exact Or.inr ⟨rfl, rfl⟩
  | succ fuel ih =>
      intro s np h
      rw [Solver.propagateGo.eq_def]
      dsimp only
      split
      · rename_i hq
        generalize hG : ({ s with qhead := s.qhead + 1 }).lookupWatch
            (s.trail.get ⟨s.qhead, hq⟩) = LW
        obtain ⟨ws, s2⟩ := LW
        dsimp only
        generalize hP : s2.processWatchers (s.trail.get ⟨s.qhead, hq⟩) ws [] = PR
        obtain ⟨s3, kept, confl⟩ := PR
        dsimp only
        have h2 : Solver.trailEq s2 { s with qhead := s.qhead + 1 } := by
          have hx := lookupWatch_trailEq { s with qhead := s.qhead + 1 }
            (s.trail.get ⟨s.qhead, hq⟩)
          rw [hG] at hx
          exact hx
        have h3 : Solver.trailGrow s3 s2 := by
          have hx := processWatchers_trailGrow (s.trail.get ⟨s.qhead, hq⟩) ws [] s2
          rw [hP] at hx
          exact hx
        have hq3 : s3.qhead = s.qhead + 1 := by rw [h3.1, h2.1]
        have ht3 : s.trail.length ≤ s3.trail.length := by
          refine le_trans (le_of_eq ?_) h3.2.2
          rw [h2.2.1]
        rcases confl with _ | cr
        · have hle : (s3.setWatchList (s.trail.get ⟨s.qhead, hq⟩) kept).qhead ≤
              (s3.setWatchList (s.trail.get ⟨s.qhead, hq⟩) kept).trail.length := by
            show s3.qhead ≤ s3.trail.length
            rw [hq3]
            exact le_trans hq ht3
          rcases ih (s3.setWatchList (s.trail.get ⟨s.qhead, hq⟩) kept) (np + 1) hle
            with hrec | hrec
          · exact Or.inl hrec
          · refine Or.inr ⟨hrec.1, ?_⟩
            rw [hrec.2]
            omega
        · exact Or.inl rfl
      · rename_i hq
        exact Or.inl (Nat.le_antisymm h (Nat.le_of_not_lt hq))

/-- C4, counterexample: `propagate()` can return no conflict while an
attached clause is falsified (neither satisfied nor holding two
non-false literals).  The entry state — built with the solver's own
construction operations, then moving `qhead` to the end of the trail
without propagating — is well-typed but violates the implicit
queue/watch discipline of reachable states, which the claim does not
assume. -/
theorem C4_counterexample_stale_clause :
    (cexC4Solver.propagate 10).1 = none ∧
    (cexC4Solver.propagate 10).2.clauses = [0] ∧
    ((cexC4Solver.propagate 10).2.watchList (negLit (mkLit 0 false))).map
      (fun w => w.cref) = [0] ∧
    (cexC4Solver.propagate 10).2.satisfiedC
      ((cexC4Solver.propagate 10).2.clauseAt 0) = false ∧
    ((cexC4Solver.propagate 10).2.clauseAt 0).lits.countP
      (fun l => decide ((cexC4Solver.propagate 10).2.valueL l ≠ .f)) = 0 := by
  decide

/-- C4 (amended): when `propagate()` returns — with or without a
conflict — the propagation queue is drained: `qhead = trail.size()`.
On a conflict the code sets `qhead` explicitly while copying the
remaining watchers; on a conflict-free return the loop condition has
just failed, which yields equality whenever the entry state satisfies
`qhead ≤ trail.size()` (part of the search invariant).  The only
exception is an artifact of the embedding: the dequeue fuel (absent
from the C code) can run out, consuming exactly `fuel` dequeues.  The
per-clause postcondition of the original claim holds only of states
satisfying the two-watched-literal discipline, not of every entry
state (see the counterexample). -/
theorem C4_propagate_drains_queue (s : Solver) (fuel : Nat)
    (h : s.qhead ≤ s.trail.length) :
    (s.propagate fuel).2.qhead = (s.propagate fuel).2.trail.length ∨
      ((s.propagate fuel).1 = none ∧ (s.propagateGo fuel 0).2.2 = fuel) := by
  rcases propagateGo_qhead fuel s 0 h with h1 | h1
  · exact Or.inl h1
  · refine Or.inr ⟨h1.1, ?_⟩
    rw [h1.2]
    omega

/-- Witness for C4 on a concrete state (two decision levels, one
propagation pending): the queue is drained. -/
theorem C4_propagate_drains_queue_witness :
    twoLevelSolver.qhead ≤ twoLevelSolver.trail.length ∧
      ((twoLevelSolver.propagate 10).2.qhead =
          (twoLevelSolver.propagate 10).2.trail.length ∨
        ((twoLevelSolver.propagate 10).1 = none ∧
          (twoLevelSolver.propagateGo 10 0).2.2 = 10)) :=
  ⟨by decide, C4_propagate_drains_queue twoLevelSolver 10 (by decide)⟩

end MinisatSMS
